import Mathlib

/-!
Verification of the rulekit sync/push reconciliation core.

File contents are modelled as `List Char`.  The JavaScript string
operations used by the source (`trim`, `split`, `indexOf`, `startsWith`,
regular-expression matching) are translated into executable Lean
functions on `List Char`; frontmatter handling (the gray-matter library)
is modelled for the delimiter form the tool itself reads and writes
(`---\n` ... `\n---`), with scalar values parsed as plain or quoted
strings.
-/

namespace Rulekit

/-- JS whitespace, as used by `String.prototype.trim` and the regex class
`\s` (ASCII part; the Unicode space characters never occur in the
documents handled here). -/
def isJsSpace (c : Char) : Bool :=
  c = ' ' ∨ c = '\t' ∨ c = '\n' ∨ c = '\r' ∨ c = '\x0b' ∨ c = '\x0c'

/-- Leading-whitespace removal (the left half of `String.prototype.trim`). -/
def jsTrimLeft (xs : List Char) : List Char := xs.dropWhile isJsSpace

/-- Trailing-whitespace removal (the right half of `String.prototype.trim`). -/
def jsTrimRight (xs : List Char) : List Char := (xs.reverse.dropWhile isJsSpace).reverse

/-- `String.prototype.trim`. -/
def jsTrim (xs : List Char) : List Char := jsTrimLeft (jsTrimRight xs)

/-- The fixed merge separator `"\n\n---\n\n"` shared by `mergeContent`
(sync.ts) and the splits in push.ts. -/
def SEP : List Char := "\n\n---\n\n".data

/-- One step of `String.prototype.split(/\n\n---\n\n/)`: `acc` holds the
current segment reversed; on a separator occurrence the segment is closed
and scanning resumes after the separator (JS regex split scans left to
right, taking non-overlapping matches). -/
def splitGo (acc : List Char) : List Char → List (List Char)
  | [] => [acc.reverse]
  | c :: cs =>
    if SEP.isPrefixOf (c :: cs) then
      match cs with
      | _ :: _ :: _ :: _ :: _ :: _ :: rest => acc.reverse :: splitGo [] rest
      | _ => [acc.reverse]
    else
      splitGo (c :: acc) cs

/-- `content.split(/\n\n---\n\n/)` from push.ts. -/
def splitSections (content : List Char) : List (List Char) := splitGo [] content

/-- `mergeContent` from sync.ts lines 182-189: merge common and
stack-specific content.  JS falsiness of a string is emptiness. -/
def mergeContent (commonContent stackContent : List Char) : List Char :=
  if commonContent = [] ∧ stackContent = [] then []
  else if commonContent = [] then stackContent
  else if stackContent = [] then commonContent
  else jsTrim commonContent ++ SEP ++ (jsTrim stackContent ++ ['\n'])

/-- The reserved stack name. -/
def kCommon : List Char := "common".data

/-- Index of the first occurrence of `pat` (JS `String.prototype.indexOf`
restricted to what the source needs, plus regex-style first-match
position search). -/
def idxOfSub (pat : List Char) : List Char → Option Nat
  | [] => if pat.isPrefixOf ([] : List Char) then some 0 else none
  | c :: cs =>
    if pat.isPrefixOf (c :: cs) then some 0
    else (idxOfSub pat cs).map (fun n => n + 1)

/-- Whether `pat` occurs starting strictly inside `xs` when the scanned
text is `xs ++ tail` (used to rule out separator matches that straddle
a concatenation boundary). -/
def earlyHit (pat : List Char) : List Char → List Char → Bool
  | [], _ => false
  | c :: cs, tail => pat.isPrefixOf (c :: (cs ++ tail)) || earlyHit pat cs tail

theorem isPrefixOf_self_append (l r : List Char) : l.isPrefixOf (l ++ r) = true := by
  induction l with
  | nil => cases r <;> rfl
  | cons c cs ih => simp [List.isPrefixOf, ih]

theorem idxOfSub_none_head (pat : List Char) (c : Char) (cs : List Char)
    (h : idxOfSub pat (c :: cs) = none) :
    pat.isPrefixOf (c :: cs) = false ∧ idxOfSub pat cs = none := by
  by_cases hp : pat.isPrefixOf (c :: cs) <;> simp [idxOfSub, hp] at h ⊢
  exact h

theorem splitGo_cons_neg (acc : List Char) (c : Char) (cs : List Char)
    (h : SEP.isPrefixOf (c :: cs) = false) :
    splitGo acc (c :: cs) = splitGo (c :: acc) cs := by
  rw [splitGo.eq_def]
  simp [h]

theorem splitGo_sep (acc rest : List Char) :
    splitGo acc (SEP ++ rest) = acc.reverse :: splitGo [] rest := by
  have e : SEP ++ rest = '\n' :: '\n' :: '-' :: '-' :: '-' :: '\n' :: '\n' :: rest := rfl
  have hp : SEP.isPrefixOf ('\n' :: '\n' :: '-' :: '-' :: '-' :: '\n' :: '\n' :: rest) = true :=
    isPrefixOf_self_append SEP rest
  rw [e, splitGo.eq_def]
  simp [hp]

theorem splitGo_no_sep (l : List Char) (acc : List Char) (h : idxOfSub SEP l = none) :
    splitGo acc l = [acc.reverse ++ l] := by
  induction l generalizing acc with
  | nil => simp [splitGo]
  | cons c cs ih =>
    obtain ⟨h1, h2⟩ := idxOfSub_none_head SEP c cs h
    rw [splitGo_cons_neg acc c cs h1, ih (c :: acc) h2]
    simp

theorem splitGo_boundary (A tail : List Char) (acc : List Char)
    (h : earlyHit SEP A (SEP ++ tail) = false) :
    splitGo acc (A ++ (SEP ++ tail)) = (acc.reverse ++ A) :: splitGo [] tail := by
  induction A generalizing acc with
  | nil => simpa using splitGo_sep acc tail
  | cons c cs ih =>
    simp only [earlyHit, Bool.or_eq_false_iff] at h
    rw [List.cons_append, splitGo_cons_neg acc c (cs ++ (SEP ++ tail)) h.1, ih (c :: acc) h.2]
    simp

theorem splitSections_two (A rest : List Char)
    (h1 : earlyHit SEP A (SEP ++ rest) = false) (h2 : idxOfSub SEP rest = none) :
    splitSections (A ++ (SEP ++ rest)) = [A, rest] := by
  unfold splitSections
  rw [splitGo_boundary A rest [] h1, splitGo_no_sep rest [] h2]
  simp

theorem dropWhile_dropWhile_self (p : Char → Bool) (l : List Char) :
    List.dropWhile p (List.dropWhile p l) = List.dropWhile p l := by
  induction l with
  | nil => rfl
  | cons c cs ih =>
    by_cases h : p c
    · simp [List.dropWhile_cons, h, ih]
    · simp [List.dropWhile_cons, h]

theorem jsTrimLeft_idem (l : List Char) : jsTrimLeft (jsTrimLeft l) = jsTrimLeft l :=
  dropWhile_dropWhile_self isJsSpace l

theorem jsTrimRight_idem (l : List Char) : jsTrimRight (jsTrimRight l) = jsTrimRight l := by
  simp [jsTrimRight, dropWhile_dropWhile_self]

theorem length_dropWhile_le (p : Char → Bool) (l : List Char) :
    (List.dropWhile p l).length ≤ l.length := by
  induction l with
  | nil => simp
  | cons c cs ih =>
    by_cases h : p c
    · simp only [List.dropWhile_cons, h, if_true]
      exact Nat.le_succ_of_le ih
    · simp [List.dropWhile_cons, h]

theorem dropWhile_cons_eq_self (p : Char → Bool) (a : Char) (l : List Char)
    (h : List.dropWhile p (a :: l) = a :: l) : p a = false := by
  by_cases hp : p a
  · rw [List.dropWhile_cons_of_pos hp] at h
    have hlen := congrArg List.length h
    have hle := length_dropWhile_le p l
    simp at hlen
    omega
  · simpa using hp

theorem jsTrimRight_of_left (y : List Char) (h : jsTrimRight y = y) :
    jsTrimRight (jsTrimLeft y) = jsTrimLeft y := by
  have hdrop : List.dropWhile isJsSpace y.reverse = y.reverse := by
    have := congrArg List.reverse h
    simpa [jsTrimRight] using this
  have hsplit : List.takeWhile isJsSpace y ++ List.dropWhile isJsSpace y = y :=
    List.takeWhile_append_dropWhile isJsSpace y
  rcases hrev : (List.dropWhile isJsSpace y).reverse with _ | ⟨d, t⟩
  · have hnil : jsTrimLeft y = [] := by
      have := congrArg List.reverse hrev
      simpa [jsTrimLeft] using this
    simp [hnil, jsTrimRight]
  · have h1 : y.reverse = d :: (t ++ (List.takeWhile isJsSpace y).reverse) := by
      rw [show y.reverse = (List.dropWhile isJsSpace y).reverse ++
            (List.takeWhile isJsSpace y).reverse by rw [← List.reverse_append, hsplit]]
      rw [hrev]
      rfl
    have hpd : isJsSpace d = false := by
      apply dropWhile_cons_eq_self isJsSpace d (t ++ (List.takeWhile isJsSpace y).reverse)
      rw [← h1]
      exact hdrop
    show (List.dropWhile isJsSpace (jsTrimLeft y).reverse).reverse = jsTrimLeft y
    rw [show (jsTrimLeft y).reverse = d :: t from hrev]
    rw [List.dropWhile_cons_of_neg (by simp [hpd])]
    rw [← hrev]
    simp [jsTrimLeft]

theorem jsTrimRight_jsTrim (s : List Char) : jsTrimRight (jsTrim s) = jsTrim s := by
  unfold jsTrim
  exact jsTrimRight_of_left (jsTrimRight s) (jsTrimRight_idem s)

theorem jsTrim_idem (s : List Char) : jsTrim (jsTrim s) = jsTrim s := by
  have h1 : jsTrimRight (jsTrim s) = jsTrim s := jsTrimRight_jsTrim s
  show jsTrimLeft (jsTrimRight (jsTrim s)) = jsTrim s
  rw [h1]
  show jsTrimLeft (jsTrimLeft (jsTrimRight s)) = jsTrim s
  rw [jsTrimLeft_idem]
  rfl

theorem jsTrimRight_append_newline (xs : List Char) :
    jsTrimRight (xs ++ ['\n']) = jsTrimRight xs := by
  have hnl : isJsSpace '\n' = true := by decide
  unfold jsTrimRight
  rw [List.reverse_append]
  rw [show (['\n'] : List Char).reverse ++ xs.reverse = '\n' :: xs.reverse from rfl]
  rw [List.dropWhile_cons_of_pos hnl]

theorem jsTrim_trim_append_newline (s : List Char) :
    jsTrim (jsTrim s ++ ['\n']) = jsTrim s := by
  show jsTrimLeft (jsTrimRight (jsTrim s ++ ['\n'])) = jsTrim s
  rw [jsTrimRight_append_newline, jsTrimRight_jsTrim]
  show jsTrimLeft (jsTrimLeft (jsTrimRight s)) = jsTrim s
  rw [jsTrimLeft_idem]
  rfl

/-- The section selection performed by `pushRules` (push.ts lines
129-137) on the frontmatter-stripped body of the root merged-rule
document: first section for the common stack, otherwise the last section
when more than one exists, else the first; the chosen section is
trimmed.  This is the reverse operation of `mergeContent`. -/
def splitForStack (content stack : List Char) : List Char :=
  let sections := splitSections content
  if stack = kCommon then jsTrim (sections.headD [])
  else if 1 < sections.length then jsTrim (sections.getLastD []) else jsTrim (sections.headD [])

/-- The subdirectory variant (push.ts lines 190-196): identical except
that a single-section document yields the empty string for a non-common
stack. -/
def splitForStackSubdir (content stack : List Char) : List Char :=
  let sections := splitSections content
  if stack = kCommon then jsTrim (sections.headD [])
  else if 1 < sections.length then jsTrim (sections.getLastD []) else []

/-- Claim C1: `mergeContent` satisfies the spec case analysis — both
empty gives empty; exactly one non-empty gives that one trimmed plus a
trailing newline; both non-empty gives
`commonBody.trim() + "\n\n---\n\n" + stackBody.trim() + "\n"`.  The
middle case is FALSE on the code: a single non-empty body is returned
unchanged.  This counterexample evaluates the code on
`commonBody = ""`, `stackBody = "x "`: the result is `"x "`, not the
claimed `"x\n"`. -/
theorem claim_C1_counterexample :
    mergeContent [] ("x ".data) = ("x ".data) ∧
    mergeContent [] ("x ".data) ≠ jsTrim ("x ".data) ++ ['\n'] := by
  constructor
  · rfl
  · decide

/-- Claim C1 (amended): if both bodies are empty the merge is empty; if
exactly one is non-empty the merge is that body UNCHANGED (not trimmed,
no newline appended); if both are non-empty the merge is
`commonBody.trim() + "\n\n---\n\n" + stackBody.trim() + "\n"`. -/
theorem claim_C1_merge_cases (c s : List Char) :
    (c = [] → s = [] → mergeContent c s = []) ∧
    (c = [] → s ≠ [] → mergeContent c s = s) ∧
    (s = [] → c ≠ [] → mergeContent c s = c) ∧
    (c ≠ [] → s ≠ [] →
      mergeContent c s = jsTrim c ++ SEP ++ (jsTrim s ++ ['\n'])) := by
  refine ⟨?_, ?_, ?_, ?_⟩ <;> intro h1 h2 <;> simp [mergeContent, h1, h2]

/-- Witness for `claim_C1_merge_cases` at concrete inputs. -/
theorem claim_C1_merge_cases_witness :
    mergeContent ("a".data) ("b".data) = jsTrim ("a".data) ++ SEP ++ (jsTrim ("b".data) ++ ['\n']) :=
  (claim_C1_merge_cases ("a".data) ("b".data)).2.2.2 (by decide) (by decide)

/-- Claim C2: the merge/split round-trip is claimed to yield
`s.trim() + "\n"` for a non-common stack and to recover `c` for the
common stack.  FALSE on the code: the split trims the selected section,
so the non-common result is `s.trim()` with no trailing newline, and the
common result is `c.trim()`, not `c`.  Counterexample at `c = "a"`,
`s = "b"`, stack `"vue"`: the split yields `"b"`, not `"b\n"`. -/
theorem claim_C2_counterexample :
    splitForStack (mergeContent ("a".data) ("b".data)) ("vue".data) = ("b".data) ∧
    splitForStack (mergeContent ("a".data) ("b".data)) ("vue".data) ≠
      jsTrim ("b".data) ++ ['\n'] := by
  constructor
  · decide
  · decide

/-- Claim C2 (amended): for non-empty bodies `c` and `s` such that no
separator occurrence starts inside the trimmed common body (straddling
the inserted separator) and the trimmed stack body contains no
separator, splitting the merge for a stack other than `"common"` yields
`s.trim()` (no trailing newline), and splitting it for `"common"` yields
`c.trim()`; in general the split takes the first section for
`"common"`, else the last section when more than one exists, else the
first, and trims the chosen section. -/
theorem claim_C2_split_merge (c s stack : List Char)
    (hc : c ≠ []) (hs : s ≠ []) (hst : stack ≠ kCommon)
    (h1 : earlyHit SEP (jsTrim c) (SEP ++ (jsTrim s ++ ['\n'])) = false)
    (h2 : idxOfSub SEP (jsTrim s ++ ['\n']) = none) :
    splitForStack (mergeContent c s) stack = jsTrim s ∧
    splitForStack (mergeContent c s) kCommon = jsTrim c := by
  have hm : mergeContent c s = jsTrim c ++ (SEP ++ (jsTrim s ++ ['\n'])) := by
    simp [mergeContent, hc, hs, List.append_assoc]
  have hsec : splitSections (mergeContent c s) = [jsTrim c, jsTrim s ++ ['\n']] := by
    rw [hm]
    exact splitSections_two (jsTrim c) (jsTrim s ++ ['\n']) h1 h2
  constructor
  · simp [splitForStack, hsec, hst, jsTrim_trim_append_newline]
  · simp [splitForStack, hsec, jsTrim_idem]

/-- Witness for `claim_C2_split_merge` at concrete inputs. -/
theorem claim_C2_split_merge_witness :
    splitForStack (mergeContent ("hello".data) ("world".data)) ("vue".data) =
      jsTrim ("world".data) ∧
    splitForStack (mergeContent ("hello".data) ("world".data)) kCommon =
      jsTrim ("hello".data) :=
  claim_C2_split_merge ("hello".data) ("world".data) ("vue".data)
    (by decide) (by decide) (by decide) (by decide) (by decide)

/-- A frontmatter scalar value: a string, a number, or null/undefined
(the only value shapes the reconciliation code distinguishes — it
branches on `typeof val === 'string'` and on `val == null`). -/
inductive FVal where
  | vstr : List Char → FVal
  | vnum : Int → FVal
  | vnull : FVal
deriving DecidableEq

instance : Inhabited FVal := ⟨FVal.vnull⟩

/-- A frontmatter map: a JS object modelled as an ordered association
list with unique keys maintained by `objInsert`. -/
abbrev FM := List (List Char × FVal)

/-- JS object property assignment: an existing key keeps its position
and gets the new value; a new key is appended. -/
def objInsert (m : FM) (k : List Char) (v : FVal) : FM :=
  match m with
  | [] => [(k, v)]
  | (k2, v2) :: t => if k2 = k then (k2, v) :: t else (k2, v2) :: objInsert t k v

/-- JS object property read. -/
def lookupFM (m : FM) (k : List Char) : Option FVal :=
  match m with
  | [] => none
  | (k2, v2) :: t => if k2 = k then some v2 else lookupFM t k

/-- JS truthiness of a frontmatter value ('' , 0, null are falsy). -/
def truthyVal (v : FVal) : Bool :=
  match v with
  | FVal.vstr s => !s.isEmpty
  | FVal.vnum n => n ≠ 0
  | FVal.vnull => false

/-- JS truthiness of an optionally-present frontmatter value. -/
def truthy (o : Option FVal) : Bool :=
  match o with
  | none => false
  | some v => truthyVal v

/-- Split a block into lines (`'\n'`-separated, JS `split('\n')`). -/
def splitLinesNL : List Char → List (List Char)
  | [] => [[]]
  | c :: cs =>
    if c = '\n' then [] :: splitLinesNL cs
    else
      match splitLinesNL cs with
      | [] => [[c]]
      | l :: ls => (c :: l) :: ls

/-- The double-quote character. -/
def dquote : Char := Char.ofNat 34

/-- The single-quote character. -/
def squote : Char := Char.ofNat 39

/-- Strip a matching pair of YAML scalar quotes. -/
def stripYamlQuotes (v : List Char) : List Char :=
  if 2 ≤ v.length ∧ v.headD ' ' = v.getLastD ' ' ∧
      (v.headD ' ' = dquote ∨ v.headD ' ' = squote) then
    (v.drop 1).dropLast
  else v

/-- Parse one line of a YAML frontmatter block into the accumulated map:
`key: value` pairs with plain or quoted scalar values, an empty value
parsing as null; blank lines and `#` comment lines are skipped, as is
any line without a colon (simplified YAML, adequate for the key/value
frontmatter this tool reads and writes). -/
def addYamlLine (acc : FM) (line : List Char) : FM :=
  if jsTrim line = [] then acc
  else if (jsTrim line).headD ' ' = '#' then acc
  else
    match (jsTrim line).dropWhile (fun c => c ≠ ':') with
    | [] => acc
    | _ :: r =>
      if jsTrim r = [] then
        objInsert acc (jsTrim ((jsTrim line).takeWhile (fun c => c ≠ ':'))) FVal.vnull
      else
        objInsert acc (jsTrim ((jsTrim line).takeWhile (fun c => c ≠ ':')))
          (FVal.vstr (stripYamlQuotes (jsTrim r)))

/-- Parse a YAML frontmatter block into an ordered map. -/
def parseYamlBlock (block : List Char) : FM :=
  (splitLinesNL block).foldl addYamlLine []

/-- Serialize one frontmatter value (plain scalars, as js-yaml emits for
the simple values handled here). -/
def renderFVal (v : FVal) : List Char :=
  match v with
  | FVal.vstr s => s
  | FVal.vnum n => (toString n).data
  | FVal.vnull => "null".data

/-- Serialize a frontmatter map as `key: value` lines. -/
def dumpFM (m : FM) : List Char :=
  m.foldr (fun kv acc => kv.1 ++ ':' :: ' ' :: (renderFVal kv.2 ++ '\n' :: acc)) []

/-- gray-matter `newline`: append a trailing newline if missing. -/
def newlineTerm (l : List Char) : List Char :=
  if l.getLastD ' ' = '\n' then l else l ++ ['\n']

/-- The gray-matter closing delimiter `"\n---"`. -/
def fmClose : List Char := "\n---".data

/-- Strip one leading `'\r'`. -/
def dropLeadCR (l : List Char) : List Char :=
  match l with
  | '\r' :: t => t
  | _ => l

/-- Strip one leading `'\n'`. -/
def dropLeadNL (l : List Char) : List Char :=
  match l with
  | '\n' :: t => t
  | _ => l

/-- gray-matter `matter(raw)`: split a document into its frontmatter map
and body.  A document opening with `---\n` has its block parsed up to
the first `"\n---"`; the body is what follows the closing delimiter,
less one `\r` and one `\n`.  With no closing delimiter the whole
remainder is the block and the body is empty.  Anything else is all
body. -/
def fmParse (raw : List Char) : FM × List Char :=
  match raw with
  | '-' :: '-' :: '-' :: '\n' :: rest =>
    match idxOfSub fmClose ('\n' :: rest) with
    | none => (parseYamlBlock ('\n' :: rest), [])
    | some i =>
      (parseYamlBlock (('\n' :: rest).take i),
       dropLeadNL (dropLeadCR (('\n' :: rest).drop (i + 4))))
  | _ => ([], raw)

/-- gray-matter `matter.stringify(body, m)`: a non-empty map is emitted
as a delimited block followed by the newline-terminated body; an empty
map yields just the newline-terminated body. -/
def fmStringify (body : List Char) (m : FM) : List Char :=
  if m = [] then newlineTerm body
  else "---\n".data ++ dumpFM m ++ ("---\n".data ++ newlineTerm body)

/-- Frontmatter key `name`. -/
def kName : List Char := "name".data

/-- Frontmatter key `description`. -/
def kDescription : List Char := "description".data

/-- Frontmatter key `agent`. -/
def kAgent : List Char := "agent".data

/-- Frontmatter key `allowed-tools`. -/
def kAllowedTools : List Char := "allowed-tools".data

/-- Frontmatter key `argument-hint`. -/
def kArgumentHint : List Char := "argument-hint".data

/-- Frontmatter key `model`. -/
def kModel : List Char := "model".data

/-- Frontmatter key `stack`. -/
def kStack : List Char := "stack".data

/-- The fixed logical-name marker `rulekit-`. -/
def kRulekitPrefix : List Char := "rulekit-".data

/-- `parsed.content.trim().split('\n')[0]`: the first line of the
trimmed body. -/
def firstLine (body : List Char) : List Char :=
  (jsTrim body).takeWhile (fun c => c ≠ '\n')

/-- The Markdown heading mark `"# "`. -/
def headingMark : List Char := "# ".data

/-- `lines[0].replace('# ', '').trim()` on a line known to start with
the heading mark (the first occurrence replaced is the leading one). -/
def dropHeadingMark (l0 : List Char) : List Char := jsTrim (l0.drop 2)

/-- `generateCursorCommand` (promptfile-generators/cursor.ts): the
entire input document is returned unchanged. -/
def generateCursorCommand (content : List Char) : List Char := content

/-- The description derived by `generateVSCodePrompt`: the first line of
the trimmed body with the heading mark removed when it is a heading
line, else the logical name. -/
def vscodeDescription (content name : List Char) : List Char :=
  let l0 := firstLine (fmParse content).2
  if headingMark.isPrefixOf l0 then dropHeadingMark l0 else name

/-- The frontmatter object built by `generateVSCodePrompt`
(dist/promptfile-generators/vscode.js): derived `name`, `description`
and `agent` fields first, then the source frontmatter spread over them
(so on a key collision the source value overwrites the derived one,
keeping the derived position). -/
def vscodeFM (content name : List Char) : FM :=
  ((fmParse content).1).foldl (fun acc kv => objInsert acc kv.1 kv.2)
    [(kName, FVal.vstr (kRulekitPrefix ++ name)),
     (kDescription, FVal.vstr (vscodeDescription content name)),
     (kAgent, FVal.vstr ("agent".data))]

/-- `generateVSCodePrompt`: reserialize the body under the combined
frontmatter. -/
def generateVSCodePrompt (content name : List Char) : List Char :=
  fmStringify (fmParse content).2 (vscodeFM content name)

/-- The `description` local of `generateClaudeCodeCommand`
(promptfile-generators/claude-code.ts lines 15-21): the first heading
line when present, else the logical name when the source frontmatter
carries no truthy description, else undefined. -/
def claudeDescOpt (content name : List Char) : Option (List Char) :=
  let l0 := firstLine (fmParse content).2
  if headingMark.isPrefixOf l0 then some (dropHeadingMark l0)
  else if truthy (lookupFM (fmParse content).1 kDescription) then none
  else some name

/-- Copy a source frontmatter field into the output object when its
value is truthy (claude-code.ts lines 26-31, 35-37). -/
def addIfTruthy (acc : FM) (data : FM) (k : List Char) : FM :=
  match lookupFM data k with
  | some v => if truthyVal v then objInsert acc k v else acc
  | none => acc

/-- A JS `string | undefined` used as a frontmatter value: undefined and
the empty string contribute nothing. -/
def strOptVal (o : Option (List Char)) : Option FVal :=
  match o with
  | some s => if s = [] then none else some (FVal.vstr s)
  | none => none

/-- The value stored under `description` by `generateClaudeCodeCommand`
(`parsed.data.description || description`, guarded by its truthiness):
the source description when truthy, else the derived description when
truthy, else nothing. -/
def claudeDescVal (content name : List Char) : Option FVal :=
  let dv := lookupFM (fmParse content).1 kDescription
  if truthy dv then dv else strOptVal (claudeDescOpt content name)

/-- The frontmatter object built by `generateClaudeCodeCommand`
(claude-code.ts lines 24-37): truthy `allowed-tools`, `argument-hint`,
selected `description` and truthy `model`, in that order. -/
def claudeFM (content name : List Char) : FM :=
  let data := (fmParse content).1
  let cf1 := addIfTruthy [] data kAllowedTools
  let cf2 := addIfTruthy cf1 data kArgumentHint
  let cf3 :=
    match claudeDescVal content name with
    | some v => objInsert cf2 kDescription v
    | none => cf2
  addIfTruthy cf3 data kModel

/-- `generateClaudeCodeCommand` (claude-code.ts lines 10-46): emit the
body under the built frontmatter when it is non-empty, else the body
alone. -/
def generateClaudeCodeCommand (content name : List Char) : List Char :=
  if claudeFM content name = [] then (fmParse content).2
  else fmStringify (fmParse content).2 (claudeFM content name)

/-- Claim C10: Variant A (Cursor) is claimed to return the source BODY
unchanged with no metadata emitted regardless of input.  FALSE: the
code returns the entire input document, so an input metadata block is
passed through.  Counterexample: a document with a frontmatter block is
returned whole, which differs from its body and still carries the
block. -/
theorem claim_C10_counterexample :
    generateCursorCommand ("---\na: b\n---\nBody.\n".data) = ("---\na: b\n---\nBody.\n".data) ∧
    (fmParse ("---\na: b\n---\nBody.\n".data)).1 ≠ [] ∧
    generateCursorCommand ("---\na: b\n---\nBody.\n".data) ≠
      (fmParse ("---\na: b\n---\nBody.\n".data)).2 := by
  refine ⟨rfl, ?_, ?_⟩ <;> decide

/-- Claim C10 (amended): Variant A returns the entire input document
text unchanged — in particular a metadata block carried by the input is
passed through verbatim rather than stripped, and for inputs without a
metadata block the output coincides with the body. -/
theorem claim_C10_passthrough (content : List Char) :
    generateCursorCommand content = content ∧
    fmParse (generateCursorCommand content) = fmParse content :=
  ⟨rfl, rfl⟩

theorem lookup_objInsert_self (m : FM) (k : List Char) (v : FVal) :
    lookupFM (objInsert m k v) k = some v := by
  induction m with
  | nil => simp [objInsert, lookupFM]
  | cons kv t ih =>
    by_cases h : kv.1 = k
    · simp [objInsert, lookupFM, h]
    · simp [objInsert, lookupFM, h, ih]

theorem lookup_objInsert_ne (m : FM) (k2 : List Char) (v : FVal) (k : List Char)
    (h : k2 ≠ k) : lookupFM (objInsert m k2 v) k = lookupFM m k := by
  induction m with
  | nil => simp [objInsert, lookupFM, h]
  | cons kv t ih =>
    by_cases h2 : kv.1 = k2
    · simp [objInsert, lookupFM, h2, h]
    · by_cases h3 : kv.1 = k <;> simp [objInsert, lookupFM, h2, h3, ih, Ne.symm h]

theorem lookupFM_none_iff (m : FM) (k : List Char) :
    lookupFM m k = none ↔ k ∉ m.map Prod.fst := by
  induction m with
  | nil => simp [lookupFM]
  | cons kv t ih =>
    rw [List.map_cons, List.mem_cons]
    by_cases h : kv.1 = k
    · simp [lookupFM, h]
    · simp only [lookupFM]
      rw [if_neg h, ih]
      constructor
      · intro hn hor
        rcases hor with h1 | h2
        · exact h h1.symm
        · exact hn h2
      · intro hn h2
        exact hn (Or.inr h2)

theorem lookup_spread_none (l : FM) (base : FM) (k : List Char)
    (h : lookupFM l k = none) :
    lookupFM (l.foldl (fun acc kv => objInsert acc kv.1 kv.2) base) k = lookupFM base k := by
  induction l generalizing base with
  | nil => rfl
  | cons kv t ih =>
    have hne : kv.1 ≠ k := by
      intro he
      simp [lookupFM, he] at h
    have ht : lookupFM t k = none := by
      simpa [lookupFM, hne] using h
    simpa [List.foldl_cons, ih (objInsert base kv.1 kv.2) ht] using
      lookup_objInsert_ne base kv.1 kv.2 k hne

theorem lookup_spread_some (l : FM) (base : FM) (k : List Char) (v : FVal)
    (hnd : (l.map Prod.fst).Nodup) (h : lookupFM l k = some v) :
    lookupFM (l.foldl (fun acc kv => objInsert acc kv.1 kv.2) base) k = some v := by
  induction l generalizing base with
  | nil => simp [lookupFM] at h
  | cons kv t ih =>
    have hnd2 : kv.1 ∉ t.map Prod.fst ∧ (t.map Prod.fst).Nodup := by
      rw [List.map_cons, List.nodup_cons] at hnd
      exact hnd
    by_cases he : kv.1 = k
    · have hv : v = kv.2 := by
        simp [lookupFM, he] at h
        exact h.symm
      have hnotin : k ∉ t.map Prod.fst := he ▸ hnd2.1
      have hnone : lookupFM t k = none := (lookupFM_none_iff t k).mpr hnotin
      rw [List.foldl_cons, lookup_spread_none t (objInsert base kv.1 kv.2) k hnone]
      rw [he, lookup_objInsert_self base k kv.2, hv]
    · have ht : lookupFM t k = some v := by simpa [lookupFM, he] using h
      exact ih (objInsert base kv.1 kv.2) hnd2.2 ht

theorem objInsert_keys_mem (m : FM) (k : List Char) (v : FVal)
    (h : k ∈ m.map Prod.fst) : (objInsert m k v).map Prod.fst = m.map Prod.fst := by
  induction m with
  | nil => simp at h
  | cons kv t ih =>
    by_cases h2 : kv.1 = k
    · simp [objInsert, h2]
    · rw [List.map_cons, List.mem_cons] at h
      have ht : k ∈ t.map Prod.fst := by
        rcases h with h3 | h3
        · exact absurd h3.symm h2
        · exact h3
      simp [objInsert, h2, ih ht]

theorem objInsert_keys_not_mem (m : FM) (k : List Char) (v : FVal)
    (h : k ∉ m.map Prod.fst) :
    (objInsert m k v).map Prod.fst = m.map Prod.fst ++ [k] := by
  induction m with
  | nil => simp [objInsert]
  | cons kv t ih =>
    have h2 : kv.1 ≠ k := by
      intro he
      exact h (by simp [he])
    have ht : k ∉ t.map Prod.fst := by
      intro he
      exact h (by simp [he])
    simp [objInsert, h2, ih ht]

theorem objInsert_nodup (m : FM) (k : List Char) (v : FVal)
    (h : (m.map Prod.fst).Nodup) : ((objInsert m k v).map Prod.fst).Nodup := by
  by_cases hm : k ∈ m.map Prod.fst
  · rw [objInsert_keys_mem m k v hm]
    exact h
  · rw [objInsert_keys_not_mem m k v hm]
    simp [List.nodup_append, h, hm]

theorem addYamlLine_nodup (acc : FM) (line : List Char)
    (h : (acc.map Prod.fst).Nodup) : ((addYamlLine acc line).map Prod.fst).Nodup := by
  unfold addYamlLine
  repeat' split
  all_goals first
    | exact h
    | exact objInsert_nodup _ _ _ h

theorem foldl_addYamlLine_nodup (lines : List (List Char)) (acc : FM)
    (h : (acc.map Prod.fst).Nodup) :
    ((lines.foldl addYamlLine acc).map Prod.fst).Nodup := by
  induction lines generalizing acc with
  | nil => exact h
  | cons l ls ih => exact ih (addYamlLine acc l) (addYamlLine_nodup acc l h)

theorem parseYamlBlock_nodup (block : List Char) :
    ((parseYamlBlock block).map Prod.fst).Nodup :=
  foldl_addYamlLine_nodup (splitLinesNL block) [] (by simp)

theorem fmParse_nodup (raw : List Char) : (((fmParse raw).1).map Prod.fst).Nodup := by
  rw [fmParse.eq_def]
  split
  · split
    · exact parseYamlBlock_nodup _
    · exact parseYamlBlock_nodup _
  · simp

theorem addIfTruthy_false (acc data : FM) (k : List Char)
    (h : truthy (lookupFM data k) = false) : addIfTruthy acc data k = acc := by
  cases hl : lookupFM data k with
  | none => simp [addIfTruthy, hl]
  | some v =>
    have hv : truthyVal v = false := by simpa [truthy, hl] using h
    simp [addIfTruthy, hl, hv]

theorem lookup_addIfTruthy_ne (acc data : FM) (k2 k : List Char) (h : k2 ≠ k) :
    lookupFM (addIfTruthy acc data k2) k = lookupFM acc k := by
  cases hl : lookupFM data k2 with
  | none => simp [addIfTruthy, hl]
  | some v =>
    by_cases hv : truthyVal v <;>
      simp [addIfTruthy, hl, hv, lookup_objInsert_ne _ _ _ _ h]

/-- Claim C4: for a source with none of the recognized frontmatter
fields and no leading heading, the Claude Code generator is claimed to
emit the body with no metadata block at all.  FALSE: the code (and its
own test in the repository) falls back to `description: <name>`, so a
metadata block IS emitted whenever the logical name is non-empty.
Counterexample with the repository test input `"Just plain
instructions."` and name `"plain"`. -/
theorem claim_C4_counterexample :
    truthy (lookupFM (fmParse ("Just plain instructions.".data)).1 kAllowedTools) = false ∧
    truthy (lookupFM (fmParse ("Just plain instructions.".data)).1 kArgumentHint) = false ∧
    truthy (lookupFM (fmParse ("Just plain instructions.".data)).1 kDescription) = false ∧
    truthy (lookupFM (fmParse ("Just plain instructions.".data)).1 kModel) = false ∧
    headingMark.isPrefixOf (firstLine (fmParse ("Just plain instructions.".data)).2) = false ∧
    generateClaudeCodeCommand ("Just plain instructions.".data) ("plain".data) ≠
      (fmParse ("Just plain instructions.".data)).2 ∧
    generateClaudeCodeCommand ("Just plain instructions.".data) ("plain".data) =
      ("---\ndescription: plain\n---\nJust plain instructions.\n".data) := by
  refine ⟨?_, ?_, ?_, ?_, ?_, ?_, ?_⟩ <;> decide

/-- Claim C4 (amended): when the source carries none of the recognized
truthy fields and the body does not open with a heading line, the output
is the body with no metadata block only for an EMPTY logical name;
otherwise a block holding `description: <name>` is emitted.  The
description selection rule holds as claimed: the source description wins
when truthy; else a non-empty first-heading-derived description; else
the logical name (when non-empty). -/
theorem claim_C4_claude_description (content name : List Char) :
    (truthy (lookupFM (fmParse content).1 kAllowedTools) = false →
     truthy (lookupFM (fmParse content).1 kArgumentHint) = false →
     truthy (lookupFM (fmParse content).1 kDescription) = false →
     truthy (lookupFM (fmParse content).1 kModel) = false →
     headingMark.isPrefixOf (firstLine (fmParse content).2) = false →
     generateClaudeCodeCommand content name =
       (if name = [] then (fmParse content).2
        else fmStringify (fmParse content).2 [(kDescription, FVal.vstr name)])) ∧
    (truthy (lookupFM (fmParse content).1 kDescription) = true →
     lookupFM (claudeFM content name) kDescription =
       lookupFM (fmParse content).1 kDescription) ∧
    (truthy (lookupFM (fmParse content).1 kDescription) = false →
     headingMark.isPrefixOf (firstLine (fmParse content).2) = true →
     dropHeadingMark (firstLine (fmParse content).2) ≠ [] →
     lookupFM (claudeFM content name) kDescription =
       some (FVal.vstr (dropHeadingMark (firstLine (fmParse content).2)))) ∧
    (truthy (lookupFM (fmParse content).1 kDescription) = false →
     headingMark.isPrefixOf (firstLine (fmParse content).2) = false →
     name ≠ [] →
     lookupFM (claudeFM content name) kDescription = some (FVal.vstr name)) := by
  have hMD : kModel ≠ kDescription := by decide
  refine ⟨?_, ?_, ?_, ?_⟩
  · intro hAT hAH hD hM hH
    have hOpt : claudeDescOpt content name = some name := by
      simp [claudeDescOpt, hH, hD]
    have hVal : claudeDescVal content name =
        (if name = [] then none else some (FVal.vstr name)) := by
      simp [claudeDescVal, hD, hOpt, strOptVal]
    have hFM : claudeFM content name =
        (if name = [] then [] else [(kDescription, FVal.vstr name)]) := by
      simp only [claudeFM]
      rw [addIfTruthy_false [] (fmParse content).1 kAllowedTools hAT,
        addIfTruthy_false [] (fmParse content).1 kArgumentHint hAH, hVal]
      by_cases hn : name = []
      · simp [hn, addIfTruthy_false [] (fmParse content).1 kModel hM]
      · simp [hn, objInsert,
          addIfTruthy_false [(kDescription, FVal.vstr name)] (fmParse content).1 kModel hM]
    by_cases hn : name = []
    · subst hn
      simp only [if_pos rfl] at hFM ⊢
      simp [generateClaudeCodeCommand, hFM]
    · rw [if_neg hn] at hFM
      simp [generateClaudeCodeCommand, hFM, hn]
  · intro hD
    cases hdv : lookupFM (fmParse content).1 kDescription with
    | none => rw [hdv] at hD; simp [truthy] at hD
    | some v =>
      have hv : truthyVal v = true := by
        rw [hdv] at hD
        simpa [truthy] using hD
      have hVal : claudeDescVal content name = some v := by
        simp [claudeDescVal, hdv, truthy, hv]
      simp only [claudeFM]
      rw [hVal]
      rw [lookup_addIfTruthy_ne _ (fmParse content).1 kModel kDescription hMD]
      rw [lookup_objInsert_self]
  · intro hD hH hne
    have hOpt : claudeDescOpt content name =
        some (dropHeadingMark (firstLine (fmParse content).2)) := by
      simp [claudeDescOpt, hH]
    have hVal : claudeDescVal content name =
        some (FVal.vstr (dropHeadingMark (firstLine (fmParse content).2))) := by
      simp [claudeDescVal, hD, hOpt, strOptVal, hne]
    simp only [claudeFM]
    rw [hVal]
    rw [lookup_addIfTruthy_ne _ (fmParse content).1 kModel kDescription hMD]
    rw [lookup_objInsert_self]
  · intro hD hH hn
    have hOpt : claudeDescOpt content name = some name := by
      simp [claudeDescOpt, hH, hD]
    have hVal : claudeDescVal content name = some (FVal.vstr name) := by
      simp [claudeDescVal, hD, hOpt, strOptVal, hn]
    simp only [claudeFM]
    rw [hVal]
    rw [lookup_addIfTruthy_ne _ (fmParse content).1 kModel kDescription hMD]
    rw [lookup_objInsert_self]

/-- Witness for `claim_C4_claude_description` at concrete inputs. -/
theorem claim_C4_claude_description_witness :
    lookupFM (claudeFM ("# Deploy Helper\n\nHelp deploy the app.".data) ("deploy".data))
      kDescription =
      some (FVal.vstr (dropHeadingMark
        (firstLine (fmParse ("# Deploy Helper\n\nHelp deploy the app.".data)).2))) :=
  (claim_C4_claude_description ("# Deploy Helper\n\nHelp deploy the app.".data)
    ("deploy".data)).2.2.1 (by decide) (by decide) (by decide)

/-- Claim C5: on a key collision the derived VSCode fields are claimed
to take precedence over the source fields.  FALSE: the source
frontmatter is spread LAST over the derived fields, so the source value
wins.  Counterexample: a source carrying `name: custom` keeps that value
instead of the derived `rulekit-test`. -/
theorem claim_C5_counterexample :
    lookupFM (vscodeFM ("---\nname: custom\n---\nBody.\n".data) ("test".data)) kName =
      some (FVal.vstr ("custom".data)) ∧
    lookupFM (vscodeFM ("---\nname: custom\n---\nBody.\n".data) ("test".data)) kName ≠
      some (FVal.vstr (kRulekitPrefix ++ ("test".data))) := by
  refine ⟨?_, ?_⟩ <;> decide

/-- Claim C5 (amended): the VSCode generator always emits a metadata
block; it contains the derived `name` (fixed prefix + logicalName),
`description` (first heading line, else logicalName) and the constant
`agent` marker whenever the source does not itself carry those keys; all
source metadata is preserved — and on a key collision the SOURCE field
value takes precedence over the derived one. -/
theorem claim_C5_vscode (content name : List Char) :
    generateVSCodePrompt content name =
      fmStringify (fmParse content).2 (vscodeFM content name) ∧
    vscodeFM content name ≠ [] ∧
    (lookupFM (fmParse content).1 kName = none →
      lookupFM (vscodeFM content name) kName =
        some (FVal.vstr (kRulekitPrefix ++ name))) ∧
    (lookupFM (fmParse content).1 kDescription = none →
      lookupFM (vscodeFM content name) kDescription =
        some (FVal.vstr (vscodeDescription content name))) ∧
    (lookupFM (fmParse content).1 kAgent = none →
      lookupFM (vscodeFM content name) kAgent = some (FVal.vstr ("agent".data))) ∧
    (∀ k v, lookupFM (fmParse content).1 k = some v →
      lookupFM (vscodeFM content name) k = some v) := by
  have hnd := fmParse_nodup content
  have hb : ∀ k0, lookupFM (fmParse content).1 k0 = none →
      lookupFM (vscodeFM content name) k0 =
      lookupFM [(kName, FVal.vstr (kRulekitPrefix ++ name)),
        (kDescription, FVal.vstr (vscodeDescription content name)),
        (kAgent, FVal.vstr ("agent".data))] k0 := by
    intro k0 h0
    exact lookup_spread_none (fmParse content).1 _ k0 h0
  have hsome : ∀ k v, lookupFM (fmParse content).1 k = some v →
      lookupFM (vscodeFM content name) k = some v := by
    intro k v h0
    exact lookup_spread_some (fmParse content).1 _ k v hnd h0
  refine ⟨rfl, ?_, ?_, ?_, ?_, hsome⟩
  · have hne : lookupFM (vscodeFM content name) kName ≠ none := by
      cases hk : lookupFM (fmParse content).1 kName with
      | none =>
        rw [hb kName hk]
        simp [lookupFM]
      | some v =>
        rw [hsome kName v hk]
        simp
    intro he
    rw [he] at hne
    exact hne rfl
  · intro h0
    rw [hb kName h0]
    simp [lookupFM]
  · intro h0
    rw [hb kDescription h0]
    simp [lookupFM, show kName ≠ kDescription from by decide]
  · intro h0
    rw [hb kAgent h0]
    simp [lookupFM, show kName ≠ kAgent from by decide,
      show kDescription ≠ kAgent from by decide]

/-- Witness for `claim_C5_vscode` at concrete inputs. -/
theorem claim_C5_vscode_witness :
    lookupFM (vscodeFM ("# T\n\nB.".data) ("x".data)) kName =
      some (FVal.vstr (kRulekitPrefix ++ ("x".data))) :=
  (claim_C5_vscode ("# T\n\nB.".data) ("x".data)).2.2.1 (by decide)

/-- The treatment of one source frontmatter entry by
`toCanonicalPromptFormat` (push.ts lines 224-236): denylisted keys
(`name`, `agent`) and null values are dropped; string values are
trimmed and dropped when empty after the trim; all other values are
kept unchanged. -/
def canonF (kv : List Char × FVal) : Option (List Char × FVal) :=
  if kv.1 = kName ∨ kv.1 = kAgent then none
  else
    match kv.2 with
    | FVal.vnull => none
    | FVal.vstr s => if jsTrim s = [] then none else some (kv.1, FVal.vstr (jsTrim s))
    | FVal.vnum n => some (kv.1, FVal.vnum n)

/-- The `for (const [key, val] of Object.entries(parsed.data))` loop of
`toCanonicalPromptFormat`, building the canonical object entry by
entry. -/
def canonicalFieldsGo (acc : FM) : List (List Char × FVal) → FM
  | [] => acc
  | kv :: rest =>
    match canonF kv with
    | none => canonicalFieldsGo acc rest
    | some kv2 => canonicalFieldsGo (objInsert acc kv2.1 kv2.2) rest

/-- The canonical frontmatter computed by `toCanonicalPromptFormat`. -/
def canonicalFields (data : FM) : FM := canonicalFieldsGo [] data

/-- `toCanonicalPromptFormat` (push.ts lines 219-242): trim the body,
filter the frontmatter, and reserialize (or return the bare body when
no canonical fields remain). -/
def toCanonicalPromptFormat (raw : List Char) : List Char :=
  if canonicalFields (fmParse raw).1 = [] then jsTrim (fmParse raw).2
  else fmStringify (jsTrim (fmParse raw).2) (canonicalFields (fmParse raw).1)

theorem objInsert_fresh (m : FM) (k : List Char) (v : FVal)
    (h : k ∉ m.map Prod.fst) : objInsert m k v = m ++ [(k, v)] := by
  induction m with
  | nil => simp [objInsert]
  | cons kv t ih =>
    have h2 : kv.1 ≠ k := by
      intro he
      exact h (by simp [he])
    have ht : k ∉ t.map Prod.fst := by
      intro he
      exact h (by simp [he])
    simp [objInsert, h2, ih ht]

theorem canonF_key (kv kv2 : List Char × FVal) (h : canonF kv = some kv2) :
    kv2.1 = kv.1 ∧ kv.1 ≠ kName ∧ kv.1 ≠ kAgent := by
  unfold canonF at h
  by_cases hd : kv.1 = kName ∨ kv.1 = kAgent
  · simp [hd] at h
  · push_neg at hd
    rcases hkv : kv.2 with s | n
    · rw [hkv] at h
      simp at h
      by_cases hs : jsTrim s = []
      · simp [hs, hd] at h
      · simp [hs, hd] at h
        refine ⟨?_, hd.1, hd.2⟩
        rw [← h]
    · rw [hkv] at h
      simp [hd] at h
      refine ⟨?_, hd.1, hd.2⟩
      rw [← h]
    · rw [hkv] at h
      simp [hd] at h

theorem canonicalFieldsGo_append (l : List (List Char × FVal)) (acc : FM)
    (hnd : (l.map Prod.fst).Nodup)
    (hdis : ∀ k ∈ l.map Prod.fst, k ∉ acc.map Prod.fst) :
    canonicalFieldsGo acc l = acc ++ l.filterMap canonF := by
  induction l generalizing acc with
  | nil => simp [canonicalFieldsGo]
  | cons kv t ih =>
    have hnd2 : kv.1 ∉ t.map Prod.fst ∧ (t.map Prod.fst).Nodup := by
      rw [List.map_cons, List.nodup_cons] at hnd
      exact hnd
    cases hc : canonF kv with
    | none =>
      rw [show canonicalFieldsGo acc (kv :: t) = canonicalFieldsGo acc t by
        simp [canonicalFieldsGo, hc]]
      rw [ih acc hnd2.2 (fun k hk => hdis k (by simp [hk]))]
      simp [List.filterMap_cons, hc]
    | some kv2 =>
      obtain ⟨hkey, _, _⟩ := canonF_key kv kv2 hc
      rw [show canonicalFieldsGo acc (kv :: t) =
          canonicalFieldsGo (objInsert acc kv2.1 kv2.2) t by
        simp [canonicalFieldsGo, hc]]
      have hfresh : kv2.1 ∉ acc.map Prod.fst := by
        rw [hkey]
        exact hdis kv.1 (by simp)
      rw [objInsert_fresh acc kv2.1 kv2.2 hfresh]
      have hdis2 : ∀ k ∈ t.map Prod.fst, k ∉ (acc ++ [(kv2.1, kv2.2)]).map Prod.fst := by
        intro k hk
        rw [List.map_append]
        intro hmem
        rcases List.mem_append.mp hmem with hm | hm
        · exact hdis k (by simp [hk]) hm
        · simp [hkey] at hm
          exact hnd2.1 (hm ▸ hk)
      rw [ih (acc ++ [(kv2.1, kv2.2)]) hnd2.2 hdis2]
      simp [List.filterMap_cons, hc]

/-- Claim C7: the canonical write-back is claimed to remove `name` and
`agent` and round-trip EVERY other field unchanged (same key, same
value).  FALSE: string values are trimmed (and dropped entirely when
empty after trimming, as are null values).  Counterexample: a
`description` field whose value carries surrounding spaces comes back
trimmed. -/
theorem claim_C7_counterexample :
    canonicalFields [(kDescription, FVal.vstr (" hi ".data))] ≠
      [(kDescription, FVal.vstr (" hi ".data))] ∧
    kDescription ≠ kName ∧ kDescription ≠ kAgent ∧
    canonicalFields [(kDescription, FVal.vstr (" hi ".data))] =
      [(kDescription, FVal.vstr ("hi".data))] := by
  refine ⟨?_, ?_, ?_, ?_⟩ <;> decide

/-- Claim C7 (amended): for every metadata map (unique keys, as JS
objects guarantee), the canonical form equals the entrywise filter that
removes the `name`/`agent` denylist and null values, trims string
values (dropping those that trim to empty), and keeps every other field
unchanged; in particular no `name` or `agent` key survives. -/
theorem claim_C7_canonical_fields (data : FM) (hnd : (data.map Prod.fst).Nodup) :
    canonicalFields data = data.filterMap canonF ∧
    lookupFM (canonicalFields data) kName = none ∧
    lookupFM (canonicalFields data) kAgent = none := by
  have heq : canonicalFields data = data.filterMap canonF := by
    have := canonicalFieldsGo_append data [] hnd (by simp)
    simpa [canonicalFields] using this
  refine ⟨heq, ?_, ?_⟩ <;> rw [heq, lookupFM_none_iff] <;> intro hmem
  · rcases List.mem_map.mp hmem with ⟨kv2, hkv2, hfst⟩
    rcases List.mem_filterMap.mp hkv2 with ⟨kv, _, hc⟩
    obtain ⟨hkey, hn, _⟩ := canonF_key kv kv2 hc
    exact hn (by rw [← hkey, hfst])
  · rcases List.mem_map.mp hmem with ⟨kv2, hkv2, hfst⟩
    rcases List.mem_filterMap.mp hkv2 with ⟨kv, _, hc⟩
    obtain ⟨hkey, _, ha⟩ := canonF_key kv kv2 hc
    exact ha (by rw [← hkey, hfst])

/-- Witness for `claim_C7_canonical_fields` at a concrete map. -/
theorem claim_C7_canonical_fields_witness :
    canonicalFields [(kName, FVal.vstr ("n".data)), (kDescription, FVal.vstr (" hi ".data))] =
      List.filterMap canonF
        [(kName, FVal.vstr ("n".data)), (kDescription, FVal.vstr (" hi ".data))] ∧
    lookupFM (canonicalFields
      [(kName, FVal.vstr ("n".data)), (kDescription, FVal.vstr (" hi ".data))]) kName = none ∧
    lookupFM (canonicalFields
      [(kName, FVal.vstr ("n".data)), (kDescription, FVal.vstr (" hi ".data))]) kAgent = none :=
  claim_C7_canonical_fields
    [(kName, FVal.vstr ("n".data)), (kDescription, FVal.vstr (" hi ".data))] (by decide)

/-- One entry of the target's `.claude/skills` directory as `pushSkills`
sees it: whether it is a directory, whether it contains `SKILL.md`, and
the local and canonical (scratch-clone) contents of the skill.  The
reconciliation code never reads either content — that is what claim C3
is about. -/
structure SkillEntry where
  isDir : Bool
  hasSkillMd : Bool
  localContent : List Char
  canonContent : List Char
deriving DecidableEq

/-- `pushSkills` (push.ts lines 359-389): when the local skills
directory exists, every directory entry containing `SKILL.md` is copied
into the scratch clone (first component: the entries copied, in order),
and `changed` is set on every copy; content equality is never
consulted. -/
def pushSkills (skillsDirExists : Bool) (entries : List SkillEntry) :
    List SkillEntry × Bool :=
  if skillsDirExists then
    (entries.filter (fun e => e.isDir && e.hasSkillMd),
     !(entries.filter (fun e => e.isDir && e.hasSkillMd)).isEmpty)
  else ([], false)

/-- Claim C3: with every local skill identical to its canonical
counterpart, no write is claimed to occur and `pushSkills` is claimed
to return false.  The code contradicts this (and its own test
`pushSkills returns false when content matches`, push.test.ts lines
221-233): evaluating the model at the test's own input — one skill
directory `my-skill` whose local and canonical `SKILL.md` both read
`"# Same Content\n"` — the skill is copied anyway and the function
returns true. -/
theorem claim_C3_code_eval :
    pushSkills true
      [⟨true, true, ("# Same Content\n".data), ("# Same Content\n".data)⟩] =
      ([⟨true, true, ("# Same Content\n".data), ("# Same Content\n".data)⟩], true) ∧
    (⟨true, true, ("# Same Content\n".data), ("# Same Content\n".data)⟩ :
        SkillEntry).localContent =
      (⟨true, true, ("# Same Content\n".data), ("# Same Content\n".data)⟩ :
        SkillEntry).canonContent := by
  refine ⟨?_, ?_⟩ <;> rfl

/-- A non-root merged-rule document as `pushSubdirRules` sees it: its
directory path, its raw text, and the canonical stack rule file at the
mirrored path in the scratch clone (which the code never reads — claim
C6 is about exactly that). -/
structure SubdirAgents where
  dir : List Char
  raw : List Char
  existing : Option (List Char)
deriving DecidableEq

/-- The heading that opens the guidance section Syncer injects. -/
def guidanceMarker : List Char := "## About This File".data

/-- Whether the lazy guidance match stops at this suffix: the lookahead
`(?=\n## |\n# |$)` succeeds (a following section heading, the end of
the string, or — since `$` without the multiline flag also matches just
before a final newline — a lone trailing newline). -/
def guidanceStop (l : List Char) : Bool :=
  l.isEmpty || l == ['\n'] || ("\n## ".data).isPrefixOf l || ("\n# ".data).isPrefixOf l

/-- Scan forward to the first position where the guidance lookahead
succeeds, returning the suffix from there. -/
def guidanceEnd : List Char → List Char
  | [] => []
  | c :: cs => if guidanceStop (c :: cs) then c :: cs else guidanceEnd cs

/-- `stripGuidanceSection` (push.ts lines 394-399): delete the first
`## About This File` section (up to the next heading or the end) and
trim the result. -/
def stripGuidanceSection (content : List Char) : List Char :=
  match idxOfSub guidanceMarker content with
  | none => jsTrim content
  | some i =>
    jsTrim (content.take i ++ guidanceEnd (content.drop (i + guidanceMarker.length)))

/-- The trimmed body of the existing canonical root rule file in the
scratch clone (push.ts lines 144-148); an absent file reads as empty. -/
def existingRootBody (er : Option (List Char)) : List Char :=
  match er with
  | none => []
  | some raw => jsTrim (fmParse raw).2

/-- The text written for a rule file:
`matter.stringify('\n' + ruleContent + '\n', { stack })`. -/
def ruleFileOutput (rc stack : List Char) : List Char :=
  fmStringify ('\n' :: (rc ++ ['\n'])) [(kStack, FVal.vstr stack)]

/-- The writes performed by one `pushRules` invocation and its returned
flag. -/
structure RulesOutcome where
  rootWrite : Option (List Char)
  subWrites : List (List Char × List Char)
  changed : Bool
deriving DecidableEq

/-- The write `pushSubdirRules` performs for one subdirectory document
(push.ts lines 181-206): the reverse-split content is written
unconditionally whenever it is non-empty — the existing canonical file
is never consulted. -/
def subdirWriteOf (stack : List Char) (sd : SubdirAgents) : Option (List Char × List Char) :=
  if splitForStackSubdir (fmParse sd.raw).2 stack = [] then none
  else some (sd.dir, ruleFileOutput (splitForStackSubdir (fmParse sd.raw).2 stack) stack)

/-- `pushRules` (push.ts lines 115-164) with `pushSubdirRules` (lines
169-210): no root merged-rule document means no work at all; otherwise
the root reverse-split (guidance stripped) is written only when it
differs from the existing canonical body, every non-empty subdirectory
reverse-split is written unconditionally, and the flag records whether
any write occurred. -/
def pushRules (root existingRoot : Option (List Char)) (subs : List SubdirAgents)
    (stack : List Char) : RulesOutcome :=
  match root with
  | none => ⟨none, [], false⟩
  | some raw =>
    let rc := stripGuidanceSection (splitForStack (fmParse raw).2 stack)
    let rootW :=
      if rc = existingRootBody existingRoot then none else some (ruleFileOutput rc stack)
    let sw := subs.filterMap (subdirWriteOf stack)
    ⟨rootW, sw, rootW.isSome || !sw.isEmpty⟩

/-- Claim C6: `pushRules` is claimed to write only on difference for the
root AND for every non-root merged-rule document.  FALSE for non-root
documents: `pushSubdirRules` never reads the existing canonical file
and writes every non-empty reverse-split unconditionally.
Counterexample: the root document matches the canonical root rule (no
root write), the subdirectory reverse-split equals the existing
canonical body exactly — yet a subdirectory write occurs and the
function reports a change. -/
theorem claim_C6_counterexample :
    (pushRules (some ("---\nstack: vue\n---\n\nA\n".data))
      (some ("---\nstack: vue\n---\n\nA\n".data))
      [⟨("docs".data), ("---\nstack: vue\n---\n\nC\n\n---\n\nS\n".data),
        some ("---\nstack: vue\n---\n\nS\n".data)⟩]
      ("vue".data)).rootWrite = none ∧
    splitForStackSubdir
      (fmParse ("---\nstack: vue\n---\n\nC\n\n---\n\nS\n".data)).2 ("vue".data) =
      jsTrim (fmParse ("---\nstack: vue\n---\n\nS\n".data)).2 ∧
    (pushRules (some ("---\nstack: vue\n---\n\nA\n".data))
      (some ("---\nstack: vue\n---\n\nA\n".data))
      [⟨("docs".data), ("---\nstack: vue\n---\n\nC\n\n---\n\nS\n".data),
        some ("---\nstack: vue\n---\n\nS\n".data)⟩]
      ("vue".data)).subWrites ≠ [] ∧
    (pushRules (some ("---\nstack: vue\n---\n\nA\n".data))
      (some ("---\nstack: vue\n---\n\nA\n".data))
      [⟨("docs".data), ("---\nstack: vue\n---\n\nC\n\n---\n\nS\n".data),
        some ("---\nstack: vue\n---\n\nS\n".data)⟩]
      ("vue".data)).changed = true := by
  refine ⟨?_, ?_, ?_, ?_⟩ <;> decide

/-- Claim C6 (amended): without a root merged-rule document `pushRules`
does nothing (subdirectories included); with one, the root canonical
file is written exactly when the guidance-stripped reverse-split
differs from its existing body, while EVERY subdirectory document whose
reverse-split is non-empty is written unconditionally (its existing
canonical file is never compared); the returned flag is true exactly
when some write occurred. -/
theorem claim_C6_push_rules (root existingRoot : Option (List Char))
    (subs : List SubdirAgents) (stack : List Char) :
    (root = none → pushRules root existingRoot subs stack = ⟨none, [], false⟩) ∧
    (∀ raw, root = some raw →
      ((pushRules root existingRoot subs stack).rootWrite = none ↔
        stripGuidanceSection (splitForStack (fmParse raw).2 stack) =
          existingRootBody existingRoot)) ∧
    (∀ raw, root = some raw → ∀ sd ∈ subs,
      splitForStackSubdir (fmParse sd.raw).2 stack ≠ [] →
      (sd.dir, ruleFileOutput (splitForStackSubdir (fmParse sd.raw).2 stack) stack) ∈
        (pushRules root existingRoot subs stack).subWrites) ∧
    ((pushRules root existingRoot subs stack).changed = true ↔
      ((pushRules root existingRoot subs stack).rootWrite ≠ none ∨
        (pushRules root existingRoot subs stack).subWrites ≠ [])) := by
  refine ⟨?_, ?_, ?_, ?_⟩
  · intro h
    rw [h]
    rfl
  · intro raw h
    subst h
    simp only [pushRules]
    by_cases hrc : stripGuidanceSection (splitForStack (fmParse raw).2 stack) =
        existingRootBody existingRoot <;> simp [hrc]
  · intro raw h sd hmem hne
    subst h
    simp only [pushRules]
    exact List.mem_filterMap.mpr ⟨sd, hmem, by simp [subdirWriteOf, hne]⟩
  · cases root with
    | none => simp [pushRules]
    | some raw =>
      simp only [pushRules]
      by_cases hrc : stripGuidanceSection (splitForStack (fmParse raw).2 stack) =
          existingRootBody existingRoot <;>
        by_cases hsw : subs.filterMap (subdirWriteOf stack) = [] <;>
        simp [hrc, hsw]

/-- Witness for `claim_C6_push_rules` at concrete inputs. -/
theorem claim_C6_push_rules_witness :
    (("docs".data),
      ruleFileOutput (splitForStackSubdir
        (fmParse ("---\nstack: vue\n---\n\nC\n\n---\n\nS\n".data)).2 ("vue".data))
        ("vue".data)) ∈
      (pushRules (some ("---\nstack: vue\n---\n\nA\n".data)) none
        [⟨("docs".data), ("---\nstack: vue\n---\n\nC\n\n---\n\nS\n".data), none⟩]
        ("vue".data)).subWrites :=
  (claim_C6_push_rules (some ("---\nstack: vue\n---\n\nA\n".data)) none
    [⟨("docs".data), ("---\nstack: vue\n---\n\nC\n\n---\n\nS\n".data), none⟩]
    ("vue".data)).2.2.1 ("---\nstack: vue\n---\n\nA\n".data) rfl
    ⟨("docs".data), ("---\nstack: vue\n---\n\nC\n\n---\n\nS\n".data), none⟩
    (by simp) (by decide)

/-- One client copy of a logical prompt as `collectLocalPrompts` sees
it: its raw text and its filesystem modification time, listed in
location-scan order. -/
structure PromptCopy where
  raw : List Char
  mtime : Nat
deriving DecidableEq

/-- The canonical form computed for one copy (push.ts line 283). -/
def canonicalOf (c : PromptCopy) : List Char := toCanonicalPromptFormat c.raw

/-- The comparison body for one copy (push.ts line 284):
`matter(canonical).content.trim()`. -/
def contentOf (c : PromptCopy) : List Char := jsTrim (fmParse (canonicalOf c)).2

/-- The substring checked by `canonical.includes('---')`. -/
def threeDashes : List Char := "---".data

/-- JS `String.prototype.includes`. -/
def containsSub (pat l : List Char) : Bool := (idxOfSub pat l).isSome

/-- One insertion step of a stable descending sort by mtime (ES2019
`Array.prototype.sort` with comparator `b.mtime - a.mtime` is stable):
an earlier-scanned element passes later equal-mtime elements never. -/
def insertByMtime (e : PromptCopy) : List PromptCopy → List PromptCopy
  | [] => [e]
  | x :: xs => if e.mtime < x.mtime then x :: insertByMtime e xs else e :: x :: xs

/-- Stable sort by descending mtime (push.ts line 300). -/
def sortByMtimeDesc : List PromptCopy → List PromptCopy
  | [] => []
  | x :: xs => insertByMtime x (sortByMtimeDesc xs)

/-- `new Set(entries.map(e => e.content)).size === 1` for a non-empty
candidate list: all comparison bodies coincide. -/
def allContentsSame (entries : List PromptCopy) : Bool :=
  (entries.map contentOf).all (fun c => c == (entries.map contentOf).headD [])

/-- The per-name conflict resolution of `collectLocalPrompts` (push.ts
lines 292-306): identical bodies pick the first copy whose canonical
text contains `---` (else the first copy) without warning; differing
bodies warn and pick the head of the mtime-descending stable sort.
Returns the chosen canonical text and whether a warning was printed. -/
def resolvePromptCopies (entries : List PromptCopy) : List Char × Bool :=
  if allContentsSame entries then
    match entries.find? (fun e => containsSub threeDashes (canonicalOf e)) with
    | some e => (canonicalOf e, false)
    | none =>
      match entries with
      | [] => ([], false)
      | e :: _ => (canonicalOf e, false)
  else
    match sortByMtimeDesc entries with
    | [] => ([], true)
    | e :: _ => (canonicalOf e, true)

/-- The first entry with maximal mtime among `best :: l` (earlier
entries win ties). -/
def firstMax (best : PromptCopy) : List PromptCopy → PromptCopy
  | [] => best
  | e :: rest => if best.mtime < e.mtime then firstMax e rest else firstMax best rest

theorem firstMax_mtime_le (b : PromptCopy) (l : List PromptCopy) :
    b.mtime ≤ (firstMax b l).mtime := by
  induction l generalizing b with
  | nil => simp [firstMax]
  | cons e r ih =>
    by_cases h : b.mtime < e.mtime
    · simp only [firstMax, h, if_true]
      exact Nat.le_of_lt (Nat.lt_of_lt_of_le h (ih e))
    · simp only [firstMax, h, if_false]
      exact ih b

theorem firstMax_shift (l : List PromptCopy) (x y : PromptCopy)
    (h : y.mtime ≤ x.mtime) :
    firstMax x l = if x.mtime < (firstMax y l).mtime then firstMax y l else x := by
  induction l generalizing x y with
  | nil =>
    simp only [firstMax]
    rw [if_neg]
    omega
  | cons e r ih =>
    by_cases hxe : x.mtime < e.mtime
    · have hye : y.mtime < e.mtime := Nat.lt_of_le_of_lt h hxe
      have hle := firstMax_mtime_le e r
      simp only [firstMax, hxe, hye, if_true]
      rw [if_pos]
      omega
    · by_cases hye : y.mtime < e.mtime
      · have hex : e.mtime ≤ x.mtime := Nat.le_of_not_lt hxe
        simp only [firstMax, hxe, hye, if_true, if_false]
        exact ih x e hex
      · simp only [firstMax, hxe, hye, if_false]
        exact ih x y h

theorem head_sortByMtimeDesc (x : PromptCopy) (xs : List PromptCopy) :
    (sortByMtimeDesc (x :: xs)).head? = some (firstMax x xs) := by
  induction xs generalizing x with
  | nil => rfl
  | cons y ys ih =>
    have ihy := ih y
    cases hL : sortByMtimeDesc (y :: ys) with
    | nil => rw [hL] at ihy; simp at ihy
    | cons h t =>
      rw [hL] at ihy
      have hh : h = firstMax y ys := by simpa using ihy
      have hstep : sortByMtimeDesc (x :: y :: ys) = insertByMtime x (h :: t) := by
        show insertByMtime x (sortByMtimeDesc (y :: ys)) = insertByMtime x (h :: t)
        rw [hL]
      rw [hstep]
      by_cases hc : x.mtime < h.mtime
      · simp only [insertByMtime, hc, if_true, List.head?_cons]
        by_cases hxy : x.mtime < y.mtime
        · simp [firstMax, hxy, hh]
        · have hyx : y.mtime ≤ x.mtime := Nat.le_of_not_lt hxy
          simp only [firstMax, hxy, if_false]
          rw [firstMax_shift ys x y hyx, ← hh, if_pos hc]
      · simp only [insertByMtime, hc, if_false, List.head?_cons]
        have hyfm : y.mtime ≤ (firstMax y ys).mtime := firstMax_mtime_le y ys
        have hyx : y.mtime ≤ x.mtime := by
          rw [hh] at hc
          omega
        have hxy : ¬ x.mtime < y.mtime := by omega
        simp only [firstMax, hxy, if_false]
        rw [firstMax_shift ys x y hyx, ← hh, if_neg hc]

/-- Claim C8: with identical bodies the copy with a non-empty metadata
block is claimed to become canonical.  FALSE: the code picks the first
copy whose canonical TEXT contains the substring `---`, which a
metadata-less copy satisfies whenever its body contains `---`.
Counterexample: two copies with the same body `Intro\n\n---\n\nMore.`;
the first has no metadata (its body supplies the dashes), the second
carries a description field — yet the first, metadata-less copy is
chosen. -/
theorem claim_C8_counterexample :
    contentOf ⟨("Intro\n\n---\n\nMore.".data), 1⟩ =
      contentOf ⟨("---\ndescription: d\n---\nIntro\n\n---\n\nMore.\n".data), 2⟩ ∧
    (fmParse (canonicalOf ⟨("Intro\n\n---\n\nMore.".data), 1⟩)).1 = [] ∧
    (fmParse (canonicalOf
      ⟨("---\ndescription: d\n---\nIntro\n\n---\n\nMore.\n".data), 2⟩)).1 ≠ [] ∧
    resolvePromptCopies
      [⟨("Intro\n\n---\n\nMore.".data), 1⟩,
       ⟨("---\ndescription: d\n---\nIntro\n\n---\n\nMore.\n".data), 2⟩] =
      (canonicalOf ⟨("Intro\n\n---\n\nMore.".data), 1⟩, false) := by
  refine ⟨?_, ?_, ?_, ?_⟩ <;> decide

/-- Claim C8 (amended): for a logical name found in at least two
locations — when all copies have identical comparison bodies, no warning
is emitted, the chosen canonical text is that of one of the copies, and
it contains `---` whenever any copy's canonical text does (the
metadata preference is by this substring heuristic: the first copy whose
canonical text contains `---` wins, so a metadata-less copy whose body
contains `---` can beat a copy with metadata); when bodies differ, a
warning is emitted and the most recently modified copy wins, ties going
to the first-encountered copy. -/
theorem claim_C8_collect (entries : List PromptCopy) (hlen : 2 ≤ entries.length) :
    (allContentsSame entries = true →
      (resolvePromptCopies entries).2 = false ∧
      (resolvePromptCopies entries).1 ∈ entries.map canonicalOf ∧
      ((∃ e ∈ entries, containsSub threeDashes (canonicalOf e) = true) →
        containsSub threeDashes (resolvePromptCopies entries).1 = true)) ∧
    (allContentsSame entries = false →
      (resolvePromptCopies entries).2 = true ∧
      ∀ x xs, entries = x :: xs →
        (resolvePromptCopies entries).1 = canonicalOf (firstMax x xs)) := by
  constructor
  · intro hsame
    cases hf : entries.find? (fun e => containsSub threeDashes (canonicalOf e)) with
    | some e =>
      have hres : resolvePromptCopies entries = (canonicalOf e, false) := by
        simp [resolvePromptCopies, hsame, hf]
      have hmem := List.mem_of_find?_eq_some hf
      have hp := List.find?_some hf
      rw [hres]
      exact ⟨rfl, List.mem_map.mpr ⟨e, hmem, rfl⟩, fun _ => by simpa using hp⟩
    | none =>
      cases hE : entries with
      | nil => rw [hE] at hlen; simp at hlen
      | cons e rest =>
        rw [hE] at hsame hf
        have hres : resolvePromptCopies (e :: rest) = (canonicalOf e, false) := by
          simp [resolvePromptCopies, hsame, hf]
        rw [hres]
        refine ⟨rfl, List.mem_map.mpr ⟨e, by simp, rfl⟩, ?_⟩
        intro hex
        rcases hex with ⟨e2, hmem2, hc2⟩
        have := List.find?_eq_none.mp hf e2 hmem2
        simp [hc2] at this
  · intro hdiff
    cases hE : entries with
    | nil => rw [hE] at hlen; simp at hlen
    | cons x xs =>
      rw [hE] at hdiff
      have hh := head_sortByMtimeDesc x xs
      cases hL : sortByMtimeDesc (x :: xs) with
      | nil => rw [hL] at hh; simp at hh
      | cons h t =>
        rw [hL] at hh
        have hh2 : h = firstMax x xs := by simpa using hh
        have hres : resolvePromptCopies (x :: xs) = (canonicalOf h, true) := by
          simp [resolvePromptCopies, hdiff, hL]
        rw [hres]
        refine ⟨rfl, ?_⟩
        intro x2 xs2 hEq
        injection hEq with hEq1 hEq2
        subst hEq1
        subst hEq2
        simp [hh2]

/-- Witness for `claim_C8_collect` at two concrete differing copies. -/
theorem claim_C8_collect_witness :
    (resolvePromptCopies [⟨("A".data), 1⟩, ⟨("B".data), 5⟩]).2 = true ∧
    (resolvePromptCopies [⟨("A".data), 1⟩, ⟨("B".data), 5⟩]).1 =
      canonicalOf (firstMax ⟨("A".data), 1⟩ [⟨("B".data), 5⟩]) := by
  have h := (claim_C8_collect [⟨("A".data), 1⟩, ⟨("B".data), 5⟩] (by decide)).2 (by decide)
  exact ⟨h.1, h.2 ⟨("A".data), 1⟩ [⟨("B".data), 5⟩] rfl⟩

/-- The .env variable key. -/
def kRULEKIT : List Char := "RULEKIT_STACK".data

/-- `.replace(/^["']|["']$/g, '')` from env.ts line 49: strip one
leading and then one trailing quote character. -/
def stripValueQuotes (v : List Char) : List Char :=
  if (if v.headD ' ' = dquote ∨ v.headD ' ' = squote then v.tail else v).getLastD ' ' = dquote ∨
     (if v.headD ' ' = dquote ∨ v.headD ' ' = squote then v.tail else v).getLastD ' ' = squote then
    (if v.headD ' ' = dquote ∨ v.headD ' ' = squote then v.tail else v).dropLast
  else
    (if v.headD ' ' = dquote ∨ v.headD ' ' = squote then v.tail else v)

/-- The attempt to match `\s*=\s*(.+)$` (with `/m`) against the text
following a line-start occurrence of `RULEKIT_STACK` (env.ts line 42).
Greedy `\s*` runs, then `=`, then greedy `\s*` again and a non-empty
capture up to the line end.  When only whitespace remains, the engine
can still backtrack into a whitespace-only capture when a non-newline
whitespace character is available; such a capture trims to the empty
string, which the model returns directly. -/
def envAfterEq (r4 : List Char) : Option (List Char) :=
  if r4.dropWhile isJsSpace = [] then
    if r4.any (fun c => c ≠ '\n') then some [] else none
  else some ((r4.dropWhile isJsSpace).takeWhile (fun c => c ≠ '\n'))

/-- The full attempt: greedy leading whitespace, the literal `=`, then
the value part. -/
def envAttempt (r2 : List Char) : Option (List Char) :=
  match r2.dropWhile isJsSpace with
  | '=' :: r4 => envAfterEq r4
  | _ => none

/-- The regex engine scan for
`/^RULEKIT_STACK\s*=\s*(.+)$/m`: positions are tried left to right, the
`^` anchor (multiline) succeeding only at position 0 and after a
newline; the first position where the whole pattern matches yields its
capture. -/
def envScanGo : Bool → List Char → Option (List Char)
  | _, [] => none
  | atStart, c :: cs =>
    if atStart && kRULEKIT.isPrefixOf (c :: cs) then
      match envAttempt ((c :: cs).drop 13) with
      | some v => some v
      | none => envScanGo (c == '\n') cs
    else envScanGo (c == '\n') cs

/-- `readStackFromEnv` (env.ts lines 34-50): match the variable line
in the .env text (when the file exists), then trim the capture and
strip quotes. -/
def readStackFromEnv (envFile : Option (List Char)) : Option (List Char) :=
  match envFile with
  | none => none
  | some content => (envScanGo true content).map (fun cap => stripValueQuotes (jsTrim cap))

/-- `readStackFromAgentsMd` (env.ts lines 60-76): the `stack`
frontmatter field of the target's merged rule document when it is a
truthy string other than `common`; a missing document or field is no
signal. -/
def readStackFromAgentsMd (agents : Option (List Char)) : Option (List Char) :=
  match agents with
  | none => none
  | some raw =>
    match lookupFM (fmParse raw).1 kStack with
    | some (FVal.vstr v) => if v ≠ [] ∧ v ≠ kCommon then some v else none
    | _ => none

/-- The tail of `resolveStack` after the .env probe. -/
def resolveFromAgents (agents : Option (List Char)) : List Char :=
  match readStackFromAgentsMd agents with
  | some v => v
  | none => kCommon

/-- The tail of `resolveStack` after the explicit-flag probe; a falsy
(empty) .env value falls through. -/
def resolveFromEnv (envFile agents : Option (List Char)) : List Char :=
  match readStackFromEnv envFile with
  | some v => if v = [] then resolveFromAgents agents else v
  | none => resolveFromAgents agents

/-- `resolveStack` (env.ts lines 9-28) over the three signal sources: a
falsy (absent or empty) explicit value falls through to the .env
variable, then to the AGENTS.md frontmatter, then to `common`. -/
def resolveStack (explicitStack envFile agents : Option (List Char)) : List Char :=
  match explicitStack with
  | some v => if v = [] then resolveFromEnv envFile agents else v
  | none => resolveFromEnv envFile agents

/-- The shape of a .env text whose first line assigns the variable:
`RULEKIT_STACK=<sp><q><v><q><sp2>\n<post>`. -/
def envDoc (sp q v sp2 post : List Char) : List Char :=
  kRULEKIT ++ '=' :: (sp ++ (q ++ (v ++ (q ++ (sp2 ++ '\n' :: post)))))

/-- The shape of a synced AGENTS.md carrying a stack frontmatter
field. -/
def agentsDoc (v tailDoc : List Char) : List Char :=
  ("---\nstack: ".data) ++ (v ++ ("\n---\n".data ++ tailDoc))

/-- All-space run (the whitespace tolerated around the .env value). -/
def spacesOnly (l : List Char) : Bool := l.all (fun c => c = ' ')

/-- An optional single quoting character, single or double. -/
def quoteOpt (q : List Char) : Bool := q.isEmpty || q == [dquote] || q == [squote]

/-- A plain scalar value: non-empty, single-line, not starting or
ending in whitespace or a quote character. -/
def plainValue (v : List Char) : Bool :=
  !v.isEmpty && v.all (fun c => c ≠ '\n') &&
  !isJsSpace (v.headD ' ') && !(v.headD ' ' = dquote) && !(v.headD ' ' = squote) &&
  !isJsSpace (v.getLastD ' ') && !(v.getLastD ' ' = dquote) && !(v.getLastD ' ' = squote)

/-- Claim C9: `resolveStack` is claimed to return the explicit value
whenever one is supplied.  FALSE: JS truthiness makes a supplied empty
string fall through to the .env variable.  Counterexample: explicit
`""` with `.env` holding `RULEKIT_STACK=nuxt` resolves to `nuxt`, not
`""`. -/
theorem claim_C9_counterexample :
    resolveStack (some []) (some ("RULEKIT_STACK=nuxt\n".data)) none = ("nuxt".data) ∧
    resolveStack (some []) (some ("RULEKIT_STACK=nuxt\n".data)) none ≠ ([] : List Char) := by
  refine ⟨?_, ?_⟩ <;> decide

theorem dropWhile_append_all (p : Char → Bool) (A B : List Char)
    (h : ∀ c ∈ A, p c = true) : List.dropWhile p (A ++ B) = List.dropWhile p B := by
  induction A with
  | nil => rfl
  | cons a A2 ih =>
    rw [List.cons_append, List.dropWhile_cons_of_pos (h a (by simp))]
    exact ih (fun c hc => h c (by simp [hc]))

theorem takeWhile_append_stop (p : Char → Bool) (A : List Char) (b : Char) (r : List Char)
    (hA : ∀ c ∈ A, p c = true) (hb : p b = false) :
    List.takeWhile p (A ++ b :: r) = A := by
  induction A with
  | nil => simp [List.takeWhile_cons, hb]
  | cons a A2 ih =>
    rw [List.cons_append, List.takeWhile_cons_of_pos (hA a (by simp))]
    rw [ih (fun c hc => hA c (by simp [hc]))]

theorem dropWhile_append_stop (p : Char → Bool) (A : List Char) (b : Char) (r : List Char)
    (hA : ∀ c ∈ A, p c = true) (hb : p b = false) :
    List.dropWhile p (A ++ b :: r) = b :: r := by
  rw [dropWhile_append_all p A (b :: r) hA]
  simp [List.dropWhile_cons, hb]

theorem drop_length_append_add (A B : List Char) (n : Nat) :
    (A ++ B).drop (A.length + n) = B.drop n := by
  induction A with
  | nil => simp
  | cons a A2 ih =>
    rw [List.cons_append, show (a :: A2).length + n = (A2.length + n) + 1 by
      simp [Nat.succ_add]]
    simpa using ih

theorem take_length_append (A B : List Char) : (A ++ B).take A.length = A := by
  induction A with
  | nil => simp
  | cons a A2 ih => simp [ih]

theorem getLastD_irrel (v : List Char) (hv : v ≠ []) (d1 d2 : Char) :
    v.getLastD d1 = v.getLastD d2 := by
  cases v with
  | nil => exact absurd rfl hv
  | cons c vs => rfl

theorem getLastD_append_right (A v : List Char) (hv : v ≠ []) (d : Char) :
    (A ++ v).getLastD d = v.getLastD d := by
  induction A generalizing d with
  | nil => rfl
  | cons a A2 ih =>
    rw [List.cons_append, List.getLastD_cons]
    rcases A2 with _ | ⟨b, A3⟩
    · simpa using getLastD_irrel v hv a d
    · exact (ih a).trans (getLastD_irrel v hv a d)

theorem headD_reverse_getLastD (X : List Char) (hX : X ≠ []) (d : Char) :
    X.reverse.headD d = X.getLastD d := by
  rcases hrev : X.reverse with _ | ⟨c, t⟩
  · exact absurd (by simpa using congrArg List.reverse hrev) hX
  · have h1 : X.reverse.head? = some c := by rw [hrev]; rfl
    have h2 : X.getLast? = some c := by rw [← List.head?_reverse, h1]
    rcases X with _ | ⟨x0, xs⟩
    · exact absurd rfl hX
    · simp only [List.headD_cons]
      rw [List.getLastD_eq_getLast? d (x0 :: xs), h2]
      rfl

theorem jsTrimRight_append_ws (X S : List Char) (hX : X ≠ [])
    (hS : ∀ c ∈ S, isJsSpace c = true)
    (hl : isJsSpace (X.getLastD ' ') = false) :
    jsTrimRight (X ++ S) = X := by
  unfold jsTrimRight
  rw [List.reverse_append]
  rw [dropWhile_append_all isJsSpace S.reverse X.reverse
    (fun c hc => hS c (List.mem_reverse.mp hc))]
  rcases hxr : X.reverse with _ | ⟨l0, lr⟩
  · exact absurd (by simpa using congrArg List.reverse hxr) hX
  · have hl0 : isJsSpace l0 = false := by
      have := headD_reverse_getLastD X hX ' '
      rw [hxr] at this
      simp only [List.headD_cons] at this
      rw [this]
      exact hl
    rw [List.dropWhile_cons_of_neg (by simp [hl0]), ← hxr, List.reverse_reverse]

theorem jsTrimLeft_eq_self (X : List Char) (hh : isJsSpace (X.headD ' ') = false) :
    jsTrimLeft X = X := by
  cases X with
  | nil => rfl
  | cons c cs =>
    simp only [List.headD_cons] at hh
    exact List.dropWhile_cons_of_neg (by simp [hh])

theorem jsTrim_append_ws (X S : List Char) (hX : X ≠ [])
    (hS : ∀ c ∈ S, isJsSpace c = true)
    (hh : isJsSpace (X.headD ' ') = false)
    (hl : isJsSpace (X.getLastD ' ') = false) :
    jsTrim (X ++ S) = X := by
  unfold jsTrim
  rw [jsTrimRight_append_ws X S hX hS hl]
  exact jsTrimLeft_eq_self X hh

theorem jsTrim_eq_self (X : List Char) (hX : X ≠ [])
    (hh : isJsSpace (X.headD ' ') = false)
    (hl : isJsSpace (X.getLastD ' ') = false) :
    jsTrim X = X := by
  have := jsTrim_append_ws X [] hX (by simp) hh hl
  simpa using this

theorem envAttempt_eq_afterEq (R : List Char) : envAttempt ('=' :: R) = envAfterEq R := by
  unfold envAttempt
  rw [List.dropWhile_cons_of_neg (by decide)]
  rfl

theorem envAfterEq_doc (sp X sp2 post : List Char)
    (hsp : spacesOnly sp = true) (hsp2 : spacesOnly sp2 = true)
    (hX : X ≠ []) (hh : isJsSpace (X.headD ' ') = false)
    (hnl : ∀ c ∈ X, c ≠ '\n') :
    envAfterEq (sp ++ (X ++ (sp2 ++ '\n' :: post))) = some (X ++ sp2) := by
  have hspw : ∀ c ∈ sp, isJsSpace c = true := by
    intro c hc
    have hc2 : c = ' ' := by simpa using List.all_eq_true.mp hsp c hc
    rw [hc2]
    decide
  have hsp2nl : ∀ c ∈ sp2, (fun c => decide (c ≠ '\n')) c = true := by
    intro c hc
    have hc2 : c = ' ' := by simpa using List.all_eq_true.mp hsp2 c hc
    rw [hc2]
    decide
  rcases X with _ | ⟨x0, X2⟩
  · exact absurd rfl hX
  · simp only [List.headD_cons] at hh
    have hdw : (sp ++ (x0 :: X2 ++ (sp2 ++ '\n' :: post))).dropWhile isJsSpace =
        x0 :: X2 ++ (sp2 ++ '\n' :: post) := by
      rw [dropWhile_append_all isJsSpace sp _ hspw]
      exact List.dropWhile_cons_of_neg (by simp [hh])
    unfold envAfterEq
    rw [hdw, if_neg (by simp)]
    have hre : x0 :: X2 ++ (sp2 ++ '\n' :: post) = (x0 :: X2 ++ sp2) ++ '\n' :: post := by
      simp [List.append_assoc]
    rw [hre, takeWhile_append_stop _ _ _ _ ?_ (by decide)]
    intro c hc
    rcases List.mem_cons.mp hc with h0 | hc2
    · rw [h0]
      simpa using hnl x0 (by simp)
    · rcases List.mem_append.mp hc2 with hm | hm
      · simpa using hnl c (by simp [hm])
      · exact hsp2nl c hm

theorem envScanGo_start (tail : List Char) (v : List Char)
    (hA : envAttempt tail = some v) :
    envScanGo true (kRULEKIT ++ tail) = some v := by
  have hp : kRULEKIT.isPrefixOf ('R' :: ("ULEKIT_STACK".data ++ tail)) = true :=
    isPrefixOf_self_append kRULEKIT tail
  have hd : ('R' :: ("ULEKIT_STACK".data ++ tail)).drop 13 = tail := by
    have := drop_length_append_add kRULEKIT tail 0
    simpa using this
  show envScanGo true ('R' :: ("ULEKIT_STACK".data ++ tail)) = some v
  rw [envScanGo.eq_def]
  simp only [Bool.true_and, hp, if_true, hd, hA]

theorem spacesOnly_ws (S : List Char) (h : spacesOnly S = true) :
    ∀ c ∈ S, isJsSpace c = true := by
  intro c hc
  have hc2 : c = ' ' := by simpa using List.all_eq_true.mp h c hc
  rw [hc2]
  decide

theorem stripValueQuotes_plain (v : List Char)
    (hhd : v.headD ' ' ≠ dquote) (hhs : v.headD ' ' ≠ squote)
    (hld : v.getLastD ' ' ≠ dquote) (hls : v.getLastD ' ' ≠ squote) :
    stripValueQuotes v = v := by
  have h1 : ¬(v.headD ' ' = dquote ∨ v.headD ' ' = squote) := by tauto
  have h2 : ¬(v.getLastD ' ' = dquote ∨ v.getLastD ' ' = squote) := by tauto
  unfold stripValueQuotes
  rw [if_neg h1, if_neg h2]

theorem stripValueQuotes_wrap (qc : Char) (v : List Char)
    (hq : qc = dquote ∨ qc = squote) :
    stripValueQuotes (qc :: (v ++ [qc])) = v := by
  have hlast : (v ++ [qc]).getLastD ' ' = qc := by
    rw [getLastD_append_right v [qc] (by simp) ' ']
    rfl
  have hcondh : (qc :: (v ++ [qc])).headD ' ' = dquote ∨
      (qc :: (v ++ [qc])).headD ' ' = squote := by
    simpa using hq
  have hinner :
      (if (qc :: (v ++ [qc])).headD ' ' = dquote ∨ (qc :: (v ++ [qc])).headD ' ' = squote
       then (qc :: (v ++ [qc])).tail else qc :: (v ++ [qc])) = v ++ [qc] := by
    rw [if_pos hcondh]
    rfl
  unfold stripValueQuotes
  rw [hinner]
  rw [if_pos (by rw [hlast]; simpa using hq)]
  exact List.dropLast_concat

theorem readStackFromEnv_shape (sp X sp2 post : List Char)
    (hsp : spacesOnly sp = true) (hsp2 : spacesOnly sp2 = true)
    (hX : X ≠ []) (hh : isJsSpace (X.headD ' ') = false)
    (hl : isJsSpace (X.getLastD ' ') = false)
    (hnl : ∀ c ∈ X, c ≠ '\n') :
    readStackFromEnv
      (some (kRULEKIT ++ ('=' :: (sp ++ (X ++ (sp2 ++ '\n' :: post)))))) =
      some (stripValueQuotes X) := by
  have hattempt : envAttempt ('=' :: (sp ++ (X ++ (sp2 ++ '\n' :: post)))) =
      some (X ++ sp2) := by
    rw [envAttempt_eq_afterEq]
    exact envAfterEq_doc sp X sp2 post hsp hsp2 hX hh hnl
  simp only [readStackFromEnv]
  rw [envScanGo_start _ _ hattempt]
  show some (stripValueQuotes (jsTrim (X ++ sp2))) = some (stripValueQuotes X)
  rw [jsTrim_append_ws X sp2 hX (spacesOnly_ws sp2 hsp2) hh hl]

theorem jsTrim_space_cons (v : List Char) (hv : v ≠ [])
    (hh : isJsSpace (v.headD ' ') = false)
    (hl : isJsSpace (v.getLastD ' ') = false) :
    jsTrim (' ' :: v) = v := by
  have htr : jsTrimRight (' ' :: v) = ' ' :: v := by
    unfold jsTrimRight
    rw [show (' ' :: v).reverse = v.reverse ++ [' '] by simp]
    rcases hxr : v.reverse with _ | ⟨l0, lr⟩
    · exact absurd (by simpa using congrArg List.reverse hxr) hv
    · have hl0 : isJsSpace l0 = false := by
        have := headD_reverse_getLastD v hv ' '
        rw [hxr] at this
        simp only [List.headD_cons] at this
        rw [this]
        exact hl
      rw [List.cons_append, List.dropWhile_cons_of_neg (by simp [hl0]), ← List.cons_append,
        ← hxr]
      simp
  unfold jsTrim
  rw [htr]
  unfold jsTrimLeft
  rw [List.dropWhile_cons_of_pos (by decide)]
  exact jsTrimLeft_eq_self v hh

theorem readStackFromEnv_doc_quoted (qc : Char) (sp v sp2 post : List Char)
    (hqc : qc = dquote ∨ qc = squote)
    (hnl : ∀ c ∈ v, c ≠ '\n')
    (hsp : spacesOnly sp = true) (hsp2 : spacesOnly sp2 = true) :
    readStackFromEnv (some (envDoc sp [qc] v sp2 post)) = some v := by
  have hqn : isJsSpace qc = false := by rcases hqc with h | h <;> rw [h] <;> decide
  have hqnl : qc ≠ '\n' := by rcases hqc with h | h <;> rw [h] <;> decide
  have hshape : envDoc sp [qc] v sp2 post =
      kRULEKIT ++ ('=' :: (sp ++ ((qc :: (v ++ [qc])) ++ (sp2 ++ '\n' :: post)))) := by
    simp [envDoc]
  have hXne : (qc :: (v ++ [qc])) ≠ [] := by simp
  have hXh : isJsSpace ((qc :: (v ++ [qc])).headD ' ') = false := hqn
  have hXl : isJsSpace ((qc :: (v ++ [qc])).getLastD ' ') = false := by
    have h9 : (qc :: (v ++ [qc])).getLastD ' ' = qc := by
      rw [show (qc :: (v ++ [qc])) = (qc :: v) ++ [qc] by simp]
      rw [getLastD_append_right (qc :: v) [qc] (by simp) ' ']
      rfl
    rw [h9]
    exact hqn
  have hXnl : ∀ c ∈ (qc :: (v ++ [qc])), c ≠ '\n' := by
    intro c hc
    rcases List.mem_cons.mp hc with h | h
    · rw [h]; exact hqnl
    · rcases List.mem_append.mp h with h | h
      · exact hnl c h
      · rw [show c = qc by simpa using h]; exact hqnl
  rw [hshape,
    readStackFromEnv_shape sp (qc :: (v ++ [qc])) sp2 post hsp hsp2 hXne hXh hXl hXnl]
  rw [stripValueQuotes_wrap qc v hqc]

theorem readStackFromEnv_doc (sp q v sp2 post : List Char)
    (hv : plainValue v = true) (hsp : spacesOnly sp = true)
    (hsp2 : spacesOnly sp2 = true) (hq : quoteOpt q = true) :
    readStackFromEnv (some (envDoc sp q v sp2 post)) = some v := by
  obtain ⟨h1, h2, h3, h4, h5, h6, h7, h8⟩ : _ ∧ _ ∧ _ ∧ _ ∧ _ ∧ _ ∧ _ ∧ _ := by
    have hc := hv
    simp only [plainValue, Bool.and_eq_true, and_assoc] at hc
    exact hc
  have hvne : v ≠ [] := by
    intro hcon
    rw [hcon] at h1
    simp at h1
  have hnl : ∀ c ∈ v, c ≠ '\n' := by
    intro c hc
    simpa using List.all_eq_true.mp h2 c hc
  have hh : isJsSpace (v.headD ' ') = false := by simpa using h3
  have hhd : v.headD ' ' ≠ dquote := by simpa using h4
  have hhs : v.headD ' ' ≠ squote := by simpa using h5
  have hl : isJsSpace (v.getLastD ' ') = false := by simpa using h6
  have hld : v.getLastD ' ' ≠ dquote := by simpa using h7
  have hls : v.getLastD ' ' ≠ squote := by simpa using h8
  have hq3 : q = [] ∨ q = [dquote] ∨ q = [squote] := by
    have hc2 : (q = [] ∨ q = [dquote]) ∨ q = [squote] := by simpa [quoteOpt] using hq
    tauto
  rcases hq3 with hq0 | hq0 | hq0 <;> subst hq0
  · have hshape : envDoc sp [] v sp2 post =
        kRULEKIT ++ ('=' :: (sp ++ (v ++ (sp2 ++ '\n' :: post)))) := by
      simp [envDoc]
    rw [hshape, readStackFromEnv_shape sp v sp2 post hsp hsp2 hvne hh hl hnl,
      stripValueQuotes_plain v hhd hhs hld hls]
  · exact readStackFromEnv_doc_quoted dquote sp v sp2 post (Or.inl rfl) hnl hsp hsp2
  · exact readStackFromEnv_doc_quoted squote sp v sp2 post (Or.inr rfl) hnl hsp hsp2

theorem plainValue_spec (v : List Char) (hv : plainValue v = true) :
    v ≠ [] ∧ (∀ c ∈ v, c ≠ '\n') ∧ isJsSpace (v.headD ' ') = false ∧
    v.headD ' ' ≠ dquote ∧ v.headD ' ' ≠ squote ∧
    isJsSpace (v.getLastD ' ') = false ∧ v.getLastD ' ' ≠ dquote ∧
    v.getLastD ' ' ≠ squote := by
  obtain ⟨h1, h2, h3, h4, h5, h6, h7, h8⟩ : _ ∧ _ ∧ _ ∧ _ ∧ _ ∧ _ ∧ _ ∧ _ := by
    have hc := hv
    simp only [plainValue, Bool.and_eq_true, and_assoc] at hc
    exact hc
  refine ⟨?_, ?_, ?_, ?_, ?_, ?_, ?_, ?_⟩
  · intro hcon
    rw [hcon] at h1
    simp at h1
  · intro c hc
    simpa using List.all_eq_true.mp h2 c hc
  · simpa using h3
  · simpa using h4
  · simpa using h5
  · simpa using h6
  · simpa using h7
  · simpa using h8

theorem idxOfSub_boundary (pat A tail : List Char)
    (hp : pat.isPrefixOf tail = true) (hA : earlyHit pat A tail = false) :
    idxOfSub pat (A ++ tail) = some A.length := by
  induction A with
  | nil =>
    cases tail with
    | nil => simp [idxOfSub, hp]
    | cons c cs => simp [idxOfSub, hp]
  | cons a A2 ih =>
    have hA2 := hA
    rw [show earlyHit pat (a :: A2) tail =
        (pat.isPrefixOf (a :: (A2 ++ tail)) || earlyHit pat A2 tail) from rfl] at hA2
    rcases Bool.or_eq_false_iff.mp hA2 with ⟨h1, h2⟩
    rw [List.cons_append]
    rw [show idxOfSub pat (a :: (A2 ++ tail)) =
        (if pat.isPrefixOf (a :: (A2 ++ tail)) then some 0
         else (idxOfSub pat (A2 ++ tail)).map (fun n => n + 1)) from rfl]
    rw [if_neg (by simp [h1])]
    rw [ih h2]
    rfl

theorem earlyHit_nl_free (pt A tail : List Char)
    (hA : ∀ c ∈ A, c ≠ '\n') :
    earlyHit ('\n' :: pt) A tail = false := by
  induction A with
  | nil => rfl
  | cons c cs ih =>
    have hc : ('\n' == c) = false :=
      beq_eq_false_iff_ne.mpr (Ne.symm (hA c (List.mem_cons_self c cs)))
    show ((('\n' :: pt).isPrefixOf (c :: (cs ++ tail))) ||
        earlyHit ('\n' :: pt) cs tail) = false
    rw [show ('\n' :: pt).isPrefixOf (c :: (cs ++ tail)) =
        (('\n' == c) && pt.isPrefixOf (cs ++ tail)) from rfl]
    rw [hc, Bool.false_and, Bool.false_or]
    exact ih (fun x hx => hA x (List.mem_cons_of_mem c hx))

theorem splitLinesNL_nl_free (l : List Char) (h : ∀ c ∈ l, c ≠ '\n') :
    splitLinesNL l = [l] := by
  induction l with
  | nil => rfl
  | cons c cs ih =>
    have hc : c ≠ '\n' := h c (List.mem_cons_self c cs)
    rw [splitLinesNL.eq_def]
    simp only [if_neg hc]
    rw [ih (fun x hx => h x (List.mem_cons_of_mem c hx))]

theorem stripYamlQuotes_noquote (v : List Char)
    (hhd : v.headD ' ' ≠ dquote) (hhs : v.headD ' ' ≠ squote) :
    stripYamlQuotes v = v := by
  unfold stripYamlQuotes
  rw [if_neg (fun hcon => hcon.2.2.elim hhd hhs)]

theorem addYamlLine_stackLine (v : List Char)
    (hvne : v ≠ [])
    (hh : isJsSpace (v.headD ' ') = false)
    (hl : isJsSpace (v.getLastD ' ') = false)
    (hhd : v.headD ' ' ≠ dquote) (hhs : v.headD ' ' ≠ squote) :
    addYamlLine [] ('s' :: 't' :: 'a' :: 'c' :: 'k' :: ':' :: ' ' :: v) =
      [(kStack, FVal.vstr v)] := by
  have hne : ('s' :: 't' :: 'a' :: 'c' :: 'k' :: ':' :: ' ' :: v) ≠ [] := by simp
  have hheadX : isJsSpace (('s' :: 't' :: 'a' :: 'c' :: 'k' :: ':' :: ' ' :: v).headD ' ') =
      false := by
    show isJsSpace 's' = false
    decide
  have hlastX : isJsSpace (('s' :: 't' :: 'a' :: 'c' :: 'k' :: ':' :: ' ' :: v).getLastD ' ') =
      false := by
    have h9 := getLastD_append_right (['s', 't', 'a', 'c', 'k', ':', ' ']) v hvne ' '
    rw [show (['s', 't', 'a', 'c', 'k', ':', ' '] ++ v) =
        ('s' :: 't' :: 'a' :: 'c' :: 'k' :: ':' :: ' ' :: v) from rfl] at h9
    rw [h9]
    exact hl
  have hline : jsTrim ('s' :: 't' :: 'a' :: 'c' :: 'k' :: ':' :: ' ' :: v) =
      's' :: 't' :: 'a' :: 'c' :: 'k' :: ':' :: ' ' :: v :=
    jsTrim_eq_self _ hne hheadX hlastX
  have hdw : ('s' :: 't' :: 'a' :: 'c' :: 'k' :: ':' :: ' ' :: v).dropWhile
      (fun c => c ≠ ':') = ':' :: (' ' :: v) :=
    dropWhile_append_stop (fun c => decide (c ≠ ':')) (['s', 't', 'a', 'c', 'k']) ':'
      (' ' :: v) (by decide) (by decide)
  have htw : ('s' :: 't' :: 'a' :: 'c' :: 'k' :: ':' :: ' ' :: v).takeWhile
      (fun c => c ≠ ':') = ['s', 't', 'a', 'c', 'k'] :=
    takeWhile_append_stop (fun c => decide (c ≠ ':')) (['s', 't', 'a', 'c', 'k']) ':'
      (' ' :: v) (by decide) (by decide)
  have hr : jsTrim (' ' :: v) = v := jsTrim_space_cons v hvne hh hl
  have hsq : stripYamlQuotes v = v := stripYamlQuotes_noquote v hhd hhs
  unfold addYamlLine
  rw [hline]
  rw [if_neg hne]
  rw [if_neg (show ¬(('s' :: 't' :: 'a' :: 'c' :: 'k' :: ':' :: ' ' :: v).headD ' ' = '#')
    from fun hcon => absurd (show 's' = '#' from hcon) (by decide))]
  rw [hdw]
  show (if jsTrim (' ' :: v) = [] then
      objInsert []
        (jsTrim (('s' :: 't' :: 'a' :: 'c' :: 'k' :: ':' :: ' ' :: v).takeWhile
          (fun c => c ≠ ':'))) FVal.vnull
    else
      objInsert []
        (jsTrim (('s' :: 't' :: 'a' :: 'c' :: 'k' :: ':' :: ' ' :: v).takeWhile
          (fun c => c ≠ ':')))
        (FVal.vstr (stripYamlQuotes (jsTrim (' ' :: v))))) = [(kStack, FVal.vstr v)]
  rw [if_neg (by rw [hr]; exact hvne)]
  rw [htw, hr, hsq]
  rfl

theorem fmParse_agentsDoc (v tailDoc : List Char)
    (hvne : v ≠ []) (hnl : ∀ c ∈ v, c ≠ '\n')
    (hh : isJsSpace (v.headD ' ') = false)
    (hl : isJsSpace (v.getLastD ' ') = false)
    (hhd : v.headD ' ' ≠ dquote) (hhs : v.headD ' ' ≠ squote) :
    fmParse (agentsDoc v tailDoc) = ([(kStack, FVal.vstr v)], tailDoc) := by
  have hchars : ∀ c ∈ ('s' :: 't' :: 'a' :: 'c' :: 'k' :: ':' :: ' ' :: v), c ≠ '\n' := by
    intro c hc
    simp only [List.mem_cons] at hc
    rcases hc with h | h | h | h | h | h | h | h <;>
      first
      | (rw [h]; decide)
      | exact hnl c h
  have hidx : idxOfSub fmClose
      (('\n' :: ('s' :: 't' :: 'a' :: 'c' :: 'k' :: ':' :: ' ' :: v)) ++
        (fmClose ++ ('\n' :: tailDoc))) =
      some (('\n' :: ('s' :: 't' :: 'a' :: 'c' :: 'k' :: ':' :: ' ' :: v)).length) := by
    apply idxOfSub_boundary
    · exact isPrefixOf_self_append fmClose ('\n' :: tailDoc)
    · show (fmClose.isPrefixOf
          ('\n' :: (('s' :: 't' :: 'a' :: 'c' :: 'k' :: ':' :: ' ' :: v) ++
            (fmClose ++ ('\n' :: tailDoc)))) ||
        earlyHit fmClose ('s' :: 't' :: 'a' :: 'c' :: 'k' :: ':' :: ' ' :: v)
          (fmClose ++ ('\n' :: tailDoc))) = false
      rw [show fmClose.isPrefixOf
          ('\n' :: (('s' :: 't' :: 'a' :: 'c' :: 'k' :: ':' :: ' ' :: v) ++
            (fmClose ++ ('\n' :: tailDoc)))) = false from rfl]
      rw [Bool.false_or]
      exact earlyHit_nl_free ('-' :: '-' :: '-' :: ([] : List Char)) _ _ hchars
  have hshape : agentsDoc v tailDoc =
      '-' :: '-' :: '-' :: '\n' ::
        ('s' :: 't' :: 'a' :: 'c' :: 'k' :: ':' :: ' ' ::
          (v ++ ('\n' :: '-' :: '-' :: '-' :: '\n' :: tailDoc))) := rfl
  have hsc : ('\n' :: ('s' :: 't' :: 'a' :: 'c' :: 'k' :: ':' :: ' ' ::
        (v ++ ('\n' :: '-' :: '-' :: '-' :: '\n' :: tailDoc)))) =
      ('\n' :: ('s' :: 't' :: 'a' :: 'c' :: 'k' :: ':' :: ' ' :: v)) ++
        (fmClose ++ ('\n' :: tailDoc)) := by
    show ('\n' :: ('s' :: 't' :: 'a' :: 'c' :: 'k' :: ':' :: ' ' ::
        (v ++ ('\n' :: '-' :: '-' :: '-' :: '\n' :: tailDoc)))) =
      ('\n' :: ('s' :: 't' :: 'a' :: 'c' :: 'k' :: ':' :: ' ' ::
        (v ++ (('\n' :: '-' :: '-' :: '-' :: []) ++ ('\n' :: tailDoc)))))
    rw [show (('\n' :: '-' :: '-' :: '-' :: []) ++ ('\n' :: tailDoc)) =
        ('\n' :: '-' :: '-' :: '-' :: '\n' :: tailDoc) from rfl]
  have hfl : fmClose.length = 4 := rfl
  have hdrop : ((('\n' :: ('s' :: 't' :: 'a' :: 'c' :: 'k' :: ':' :: ' ' :: v))) ++
      (fmClose ++ ('\n' :: tailDoc))).drop
        ((('\n' :: ('s' :: 't' :: 'a' :: 'c' :: 'k' :: ':' :: ' ' :: v))).length + 4) =
      '\n' :: tailDoc := by
    rw [← List.append_assoc]
    have h0 := drop_length_append_add
      (('\n' :: ('s' :: 't' :: 'a' :: 'c' :: 'k' :: ':' :: ' ' :: v)) ++ fmClose)
      ('\n' :: tailDoc) 0
    rw [List.length_append, hfl] at h0
    simpa using h0
  have hpy : parseYamlBlock ('\n' :: ('s' :: 't' :: 'a' :: 'c' :: 'k' :: ':' :: ' ' :: v)) =
      [(kStack, FVal.vstr v)] := by
    unfold parseYamlBlock
    have hsl : splitLinesNL ('\n' :: ('s' :: 't' :: 'a' :: 'c' :: 'k' :: ':' :: ' ' :: v)) =
        [[], 's' :: 't' :: 'a' :: 'c' :: 'k' :: ':' :: ' ' :: v] := by
      rw [show splitLinesNL ('\n' :: ('s' :: 't' :: 'a' :: 'c' :: 'k' :: ':' :: ' ' :: v)) =
          [] :: splitLinesNL ('s' :: 't' :: 'a' :: 'c' :: 'k' :: ':' :: ' ' :: v) from rfl]
      rw [splitLinesNL_nl_free _ hchars]
    rw [hsl]
    show addYamlLine (addYamlLine [] [])
      ('s' :: 't' :: 'a' :: 'c' :: 'k' :: ':' :: ' ' :: v) = [(kStack, FVal.vstr v)]
    rw [show addYamlLine ([] : FM) [] = ([] : FM) from rfl]
    exact addYamlLine_stackLine v hvne hh hl hhd hhs
  rw [hshape]
  rw [fmParse.eq_def]
  simp only []
  rw [hsc, hidx]
  simp only []
  rw [take_length_append, hdrop]
  rw [show dropLeadNL (dropLeadCR ('\n' :: tailDoc)) = tailDoc from rfl]
  rw [hpy]

theorem readStackFromAgentsMd_doc (v tailDoc : List Char)
    (hv : plainValue v = true) (hvc : v ≠ kCommon) :
    readStackFromAgentsMd (some (agentsDoc v tailDoc)) = some v := by
  obtain ⟨hvne, hnl, hh, hhd, hhs, hl, hld, hls⟩ := plainValue_spec v hv
  have hfm := fmParse_agentsDoc v tailDoc hvne hnl hh hl hhd hhs
  show (match lookupFM (fmParse (agentsDoc v tailDoc)).1 kStack with
    | some (FVal.vstr w) => if w ≠ [] ∧ w ≠ kCommon then some w else none
    | _ => none) = some v
  rw [hfm]
  show (match lookupFM [(kStack, FVal.vstr v)] kStack with
    | some (FVal.vstr w) => if w ≠ [] ∧ w ≠ kCommon then some w else none
    | _ => none) = some v
  rw [show lookupFM [(kStack, FVal.vstr v)] kStack = some (FVal.vstr v) by
    show (if kStack = kStack then some (FVal.vstr v) else lookupFM [] kStack) =
      some (FVal.vstr v)
    rw [if_pos rfl]]
  show (if v ≠ [] ∧ v ≠ kCommon then some v else none) = some v
  rw [if_pos ⟨hvne, hvc⟩]

/-- Claim C9 (amended): stack resolution follows the priority chain with
JS truthiness at every level.  (1) A NON-EMPTY explicit value is
returned as-is (an empty explicit value falls through, per the
counterexample).  (2) Otherwise a `.env` line
`RULEKIT_STACK=<spaces><quote?><value><quote?><spaces>` yields the value
with single or double quotes and surrounding spaces stripped, for any
plain single-line value, regardless of the AGENTS.md contents.
(3) Otherwise the `stack` frontmatter field of a synced AGENTS.md is
returned provided it is a plain value other than `common`.  (4) With no
signal at all the literal `common` is returned. -/
theorem claim_C9_resolve_stack :
    (∀ ex envF agents, ex ≠ ([] : List Char) →
      resolveStack (some ex) envF agents = ex) ∧
    (∀ exO sp q v sp2 post agents,
      (exO = none ∨ exO = some ([] : List Char)) →
      plainValue v = true → spacesOnly sp = true → spacesOnly sp2 = true →
      quoteOpt q = true →
      resolveStack exO (some (envDoc sp q v sp2 post)) agents = v) ∧
    (∀ exO v tailDoc,
      (exO = none ∨ exO = some ([] : List Char)) →
      plainValue v = true → v ≠ kCommon →
      resolveStack exO none (some (agentsDoc v tailDoc)) = v) ∧
    (∀ exO, (exO = none ∨ exO = some ([] : List Char)) →
      resolveStack exO none none = kCommon) := by
  refine ⟨?_, ?_, ?_, ?_⟩
  · intro ex envF agents hne
    show (if ex = [] then resolveFromEnv envF agents else ex) = ex
    rw [if_neg hne]
  · intro exO sp q v sp2 post agents hex hv hsp hsp2 hq
    have hvne : v ≠ [] := (plainValue_spec v hv).1
    have hfe : resolveFromEnv (some (envDoc sp q v sp2 post)) agents = v := by
      unfold resolveFromEnv
      rw [readStackFromEnv_doc sp q v sp2 post hv hsp hsp2 hq]
      show (if v = [] then resolveFromAgents agents else v) = v
      rw [if_neg hvne]
    rcases hex with h | h <;> subst h
    · exact hfe
    · show (if ([] : List Char) = [] then
          resolveFromEnv (some (envDoc sp q v sp2 post)) agents else []) = v
      rw [if_pos rfl]
      exact hfe
  · intro exO v tailDoc hex hv hvc
    have hfa : resolveFromAgents (some (agentsDoc v tailDoc)) = v := by
      unfold resolveFromAgents
      rw [readStackFromAgentsMd_doc v tailDoc hv hvc]
    have hfe : resolveFromEnv none (some (agentsDoc v tailDoc)) = v := hfa
    rcases hex with h | h <;> subst h
    · exact hfe
    · show (if ([] : List Char) = [] then
          resolveFromEnv none (some (agentsDoc v tailDoc)) else []) = v
      rw [if_pos rfl]
      exact hfe
  · intro exO hex
    rcases hex with h | h <;> subst h <;> rfl

/-- Witness: resolveStack applied at concrete inputs for the amended
claim, covering the quoted-and-padded `.env` value and the AGENTS.md
fallback with an empty (falsy) explicit value. -/
theorem claim_C9_resolve_stack_witness :
    resolveStack none
      (some (envDoc [' '] [dquote] ("nuxt".data) [' '] ("FOO=1".data))) none =
      ("nuxt".data) ∧
    resolveStack (some []) none (some (agentsDoc ("vue".data) ("body".data))) =
      ("vue".data) :=
  ⟨claim_C9_resolve_stack.2.1 none [' '] [dquote] ("nuxt".data) [' '] ("FOO=1".data)
      none (Or.inl rfl) (by decide) (by decide) (by decide) (by decide),
   claim_C9_resolve_stack.2.2.1 (some []) ("vue".data) ("body".data)
      (Or.inr rfl) (by decide) (by decide)⟩

end Rulekit

